import Mathlib

namespace AALChem

set_option maxRecDepth 4000

/-!
Verification development for the token-aware text-alignment core of the
AAL-Chem repository (`aalchem/data/alignment.py` and `aalchem/data/strings.py`).

The Python code is shallowly embedded:
* tokens become a Lean structure `Tok` with a closed `Kind` tag standing for
  the Python class of the token (`Kind.token` is the base class `Token`);
* the floating-point scores of the scorer are modelled as exact rationals,
  carried by the kernel-computable fraction type `Q` (integer numerator,
  natural denominator); value-level equality and order are decided by
  cross-multiplication, and `Q.toRat` maps into `ℚ` for order reasoning;
* the score/traceback matrices, which Python fills row by row, are modelled
  as the function of the cell indices that satisfies the same recurrence
  (entries beyond row `n` / column `m` are junk the Python never has);
* the traceback walk, whose Python loop can raise `IndexError`, returns an
  `Option`; `none` models the raised error;
* the in-place mutation of shared token objects is modelled separately by a
  heap-passing variant (`List Tok` heap, token references are indices).
-/

/-! ### Exact fraction scores

The Python scorer computes with `float`s; all constants and all quantities
appearing there are small exact rationals, which we carry as unreduced
fractions so that concrete alignments evaluate inside the kernel. -/

/-- An unreduced fraction: `num / den`.  All fractions built by the model
have a nonzero denominator except in the one corner where the Python source
itself divides by zero (see `nwDiag`). -/
structure Q where
  num : Int
  den : Nat
  deriving DecidableEq, Repr

/-- Embed an integer as a fraction. -/
def Q.ofInt (n : Int) : Q := ⟨n, 1⟩

/-- Sum of two fractions, denominators multiplied (no reduction). -/
def Q.add (a b : Q) : Q := ⟨a.num * b.den + b.num * a.den, a.den * b.den⟩

/-- Product of two fractions (no reduction). -/
def Q.mul (a b : Q) : Q := ⟨a.num * b.num, a.den * b.den⟩

/-- Value-level comparison `a ≤ b` by cross-multiplication (denominators are
nonnegative by construction). -/
def Q.blev (a b : Q) : Bool := a.num * (b.den : Int) ≤ b.num * (a.den : Int)

/-- Value-level equality test by cross-multiplication; this models the
floating-point `==` of the Python tie detection. -/
def Q.beqv (a b : Q) : Bool := a.num * (b.den : Int) == b.num * (a.den : Int)

/-- Larger of two fraction values, modelling Python `max` on two of its
arguments. -/
def Q.qmax (a b : Q) : Q := if Q.blev a b then b else a

/-- The rational value of a fraction (junk `0` when the denominator is `0`). -/
def Q.toRat (a : Q) : ℚ := (a.num : ℚ) / (a.den : ℚ)

/-! ### The token data model (`strings.py`)

`Token` and its subclasses `Whitespace`, `Spacer`, `Punctuation`, `Word`,
`Special`, `Numeric` form a one-level class hierarchy; the class is carried
here as a `Kind` tag, `Kind.token` being the base class `Token` itself. -/

/-- The Python class of a token. -/
inductive Kind
  | token | whitespace | spacer | punctuation | word | special | numeric
  deriving DecidableEq, Repr

/-- Python `isinstance(x, type(y))` for this one-level hierarchy: true when
the classes coincide, and also whenever `y` is a plain base-class `Token`,
since every token is an instance of `Token`. -/
def isinst (kx ky : Kind) : Bool := kx == ky || ky == Kind.token

/-- The fields of a `token.original` back-reference that the alignment code
reads: its `text` (lines 133-134 of `alignment.py`) and its class
(`isinstance(to_match1, type(token2))`, line 136).  No other field of the
referenced token is ever consulted. -/
structure OrigTok where
  text : String
  kind : Kind
  deriving DecidableEq, Repr

/-- A token: the mutable fields of the Python `Token` object that the
alignment core reads or writes.  Defaults mirror the Python constructor
defaults (`index=None`, `start=None`, `aligned=False`, `alignment_spaces=0`,
`color=''`, `bg=None`, `original=None`, `operation=None`). -/
structure Tok where
  text : String
  kind : Kind
  index : Option Nat := none
  start : Option Nat := none
  aligned : Bool := false
  alignment_spaces : Nat := 0
  color : Option String := some ""
  bg : Option String := none
  original : Option OrigTok := none
  operation : Option String := none
  deriving DecidableEq, Repr

/-- A junk token used only to give total meaning to out-of-range list reads
that the Python loops never perform. -/
def dummyTok : Tok := { text := "", kind := Kind.token }

/-- The `COLOR_MAPPING` table of `strings.py` (colorama foreground codes). -/
def colorMapping (c : Char) : String :=
  if c = 'b' then "\x1b[34m"
  else if c = 'r' then "\x1b[31m"
  else if c = 'g' then "\x1b[32m"
  else if c = 'p' then "\x1b[35m"
  else if c = 'y' then "\x1b[33m"
  else if c = 'c' then "\x1b[36m"
  else if c = 'w' then "\x1b[37m"
  else "\x1b[30m"

/-- `Token.clear_alignment`: resets `aligned`, `alignment_spaces` and
`color` (the latter to `None`). -/
def clearTok (t : Tok) : Tok :=
  { t with aligned := false, alignment_spaces := 0, color := none }

/-! ### `longest_common_substring` (`alignment.py`, lines 59-81)

The Python builds the classical dynamic-programming table
`dp[i][j] = dp[i-1][j-1] + 1` when `s1[i-1] == s2[j-1]`, else `0`, scanning
rows then columns while remembering the best length and its end row, and
returns `s1[row - length : row]`.  `dpVal` is the function the filled table
tabulates; the row-major scan is the fold `lcsScan` over the same index
pairs in the same order. -/

/-- Value of the `dp` table of `longest_common_substring` at `(i, j)`. -/
def dpVal (s1 s2 : List Char) : Nat → Nat → Nat
  | 0, _ => 0
  | _ + 1, 0 => 0
  | i + 1, j + 1 =>
    match s1[i]?, s2[j]? with
    | some a, some b => if a = b then dpVal s1 s2 i j + 1 else 0
    | _, _ => 0

/-- The row-major list of index pairs `(i, j)`, `1 ≤ i ≤ n`, `1 ≤ j ≤ m`,
in the order the two nested Python loops visit them. -/
def lcsCells (n m : Nat) : List (Nat × Nat) :=
  (List.range' 1 n).flatMap fun i => (List.range' 1 m).map fun j => (i, j)

/-- One step of the best-length bookkeeping: `if dp[i][j] > length:
length, row = dp[i][j], i`. -/
def lcsUpd (s1 s2 : List Char) (acc : Nat × Nat) (ij : Nat × Nat) : Nat × Nat :=
  let d := dpVal s1 s2 ij.1 ij.2
  if acc.1 < d then (d, ij.1) else acc

/-- The `(length, row)` pair after the scan of the whole table. -/
def lcsScan (s1 s2 : List Char) : Nat × Nat :=
  (lcsCells s1.length s2.length).foldl (lcsUpd s1 s2) (0, 0)

/-- `longest_common_substring(s1, s2)`: the slice `s1[row - length : row]`,
or the empty string when no common character pair was found. -/
def longest_common_substring (s1 s2 : List Char) : List Char :=
  let p := lcsScan s1 s2
  if p.1 = 0 then [] else (s1.drop (p.2 - p.1)).take p.1

/-! ### The scorer (`needleman_wunsch_alignment_words_substring`, lines 84-170) -/

/-- The six scoring constants, keyword arguments of
`needleman_wunsch_alignment_words_substring`. -/
structure ScoreParams where
  match_score : Q
  mismatch_score : Q
  gap_score : Q
  substring_match_score : Q
  type_match_score : Q
  original_match_score : Q
  deriving DecidableEq, Repr

/-- The default scoring constants of the source: match `1`, mismatch `-1`,
gap `-1`, substring bonus weight `1.5`, type bonus `0.5`, original bonus
`0.5`. -/
def defaultParams : ScoreParams :=
  { match_score := ⟨1, 1⟩
    mismatch_score := ⟨-1, 1⟩
    gap_score := ⟨-1, 1⟩
    substring_match_score := ⟨3, 2⟩
    type_match_score := ⟨1, 2⟩
    original_match_score := ⟨1, 2⟩ }

/-- The contribution added to `score[i-1][j-1]` to form the diagonal
candidate `match` (lines 123-153): the match score on equal texts, otherwise
the substring-scaled mismatch score plus the type bonus plus the
original-reference bonuses.  When `token1.original` is present the compared
source text is the original's text, and `max_len` is likewise taken over the
original's text.  The fraction `⟨lcs length, max_len⟩` has denominator `0`
exactly when both compared texts are empty, the corner where the Python
raises `ZeroDivisionError` (line 147).  This definition is total there and
returns a junk denominator-`0` fraction instead, so every theorem about
the scorer or about whole-pipeline success carries the `SafeToks` /
`SafePair` guard excluding that corner; the guard holds for all pairs of
`original`-free tokens, hence for everything the tokenizer produces. -/
def nwDiag (p : ScoreParams) (token1 token2 : Tok) : Q :=
  if token1.text = token2.text then p.match_score
  else
    let originalMatch : Q :=
      match token1.original with
      | some o =>
        Q.add (if o.text = token2.text then p.original_match_score else Q.ofInt 0)
              (if isinst o.kind token2.kind then p.type_match_score else Q.ofInt 0)
      | none => Q.ofInt 0
    let srcText : String :=
      match token1.original with
      | some o => o.text
      | none => token1.text
    let lcs := longest_common_substring srcText.data token2.text.data
    let maxLen := max srcText.length token2.text.length
    let mismatchAdjusted :=
      Q.add (Q.add p.mismatch_score (Q.mul ⟨(lcs.length : Int), maxLen⟩ p.substring_match_score))
            (if isinst token1.kind token2.kind && decide (1 < maxLen)
             then p.type_match_score else Q.ofInt 0)
    Q.add mismatchAdjusted originalMatch

/-- The comparison source text of the mismatch branch: the original's text
when `token1.original` is present, else `token1.text` (lines 131-140). -/
def srcTextOf (t : Tok) : String :=
  match t.original with
  | some o => o.text
  | none => t.text

/-- All six scoring constants are genuine fractions (nonzero denominator);
holds for `defaultParams`. -/
@[reducible] def PDen (p : ScoreParams) : Prop :=
  p.match_score.den ≠ 0 ∧ p.mismatch_score.den ≠ 0 ∧ p.gap_score.den ≠ 0 ∧
  p.substring_match_score.den ≠ 0 ∧ p.type_match_score.den ≠ 0 ∧
  p.original_match_score.den ≠ 0

/-- A token pair on which the mismatch branch of the scorer does not divide
by zero (`max_len > 0` whenever the texts differ).  Any pair of tokens
without `original` references satisfies this. -/
@[reducible] def SafeToks (a b : Tok) : Prop :=
  a.text = b.text ∨ 0 < max (srcTextOf a).length b.text.length

/-- Pairwise scoring safety of two sequences. -/
@[reducible] def SafePair (t1 t2 : List Tok) : Prop := ∀ a ∈ t1, ∀ b ∈ t2, SafeToks a b

/-- A traceback cell: which of the tags `D`, `U`, `L` the Python string
contains.  The source appends the characters in the fixed order `D`, `U`,
`L` and only ever tests membership, so a flag triple is a faithful model. -/
structure Trace where
  d : Bool
  u : Bool
  l : Bool
  deriving DecidableEq, Repr

/-- One interior cell (lines 119-168): the three candidates, their maximum,
and a tag for every candidate that attains the maximum (ties kept). -/
def fillCell (p : ScoreParams) (token1 token2 : Tok) (diag up left : Q) : Q × Trace :=
  let matchCand := Q.add diag (nwDiag p token1 token2)
  let deleteCand := Q.add up p.gap_score
  let insertCand := Q.add left p.gap_score
  let maxScore := Q.qmax (Q.qmax matchCand deleteCand) insertCand
  (maxScore, ⟨Q.beqv maxScore matchCand, Q.beqv maxScore deleteCand, Q.beqv maxScore insertCand⟩)

/-- Row `i ≥ 1` of the two matrices as a function of the column, built from
the score row above it: column `0` is the gap base case with tag `U`, and
column `j+1` is `fillCell` on `token1 = s1_tokens[i-1]`,
`token2 = s2_tokens[j]`. -/
def nwRow (p : ScoreParams) (token1 : Tok) (t2 : List Tok) (prev : Nat → Q) (i : Nat) :
    Nat → Q × Trace
  | 0 => (Q.mul p.gap_score (Q.ofInt i), ⟨false, true, false⟩)
  | j + 1 =>
    fillCell p token1 (t2.getD j dummyTok) (prev j) (prev (j + 1))
      (nwRow p token1 t2 prev i j).1

/-- The score and traceback matrices as one function of `(i, j)`: row `0`
is the gap base case with tag `L` (no tag at `(0,0)`), row `i+1` is `nwRow`
over the scores of row `i`.  Python fills arrays of shape
`(n+1) × (m+1)`; entries with `i > n` or `j > m` are junk it does not have. -/
def nwCell (p : ScoreParams) (t1 t2 : List Tok) : Nat → Nat → Q × Trace
  | 0 => fun j => (Q.mul p.gap_score (Q.ofInt j), ⟨false, false, decide (0 < j)⟩)
  | i + 1 => nwRow p (t1.getD i dummyTok) t2 (fun j => (nwCell p t1 t2 i j).1) (i + 1)

/-- The score matrix entry at `(i, j)`. -/
def nwScore (p : ScoreParams) (t1 t2 : List Tok) (i j : Nat) : Q :=
  (nwCell p t1 t2 i j).1

/-- The traceback matrix entry at `(i, j)`. -/
def nwTrace (p : ScoreParams) (t1 t2 : List Tok) (i j : Nat) : Trace :=
  (nwCell p t1 t2 i j).2

/-! ### The traceback walk (`get_alignment_and_visualization_words`, lines 173-235)

The Python walks from `(n, m)` with a `while` loop, prepending
(`insert(0, ...)`) a token to each aligned list per move; the loop only
stops at the `break`, and each move decreases `i + j`, so fuel `n + m + 1`
never runs out.  The eager reads `text1.tokens[i-1] if i > 0 else
text1.tokens[0]` (and likewise for `text2`) raise `IndexError` exactly when
the indexed list is empty; that raise is modelled by `none`. -/

/-- The gap placeholder freshly created in the up/left branches:
`Spacer(text='', aligned=True, alignment_spaces=k)`. -/
def mkAlignedSpacer (k : Nat) : Tok :=
  { text := "", kind := Kind.spacer, aligned := true, alignment_spaces := k }

/-- The walk loop, value-level: `i`, `j` are the current cell, `acc1`,
`acc2` the aligned lists built so far (prepending in walk order, exactly as
`insert(0, ...)` does).  Python mutates a reused spacer in place; here the
updated value is placed in the output list (the aliasing itself is modelled
by `walkHAux` below). -/
def walkAux (t1 t2 : List Tok) (tb : Nat → Nat → Trace) :
    Nat → Nat → Nat → List Tok → List Tok → Option (List Tok × List Tok)
  | 0, _, _, _, _ => none
  | fuel + 1, i, j, acc1, acc2 =>
    match (if 0 < i then t1.get? (i - 1) else t1.get? 0),
          (if 0 < j then t2.get? (j - 1) else t2.get? 0) with
    | some token1, some token2 =>
      if (tb i j).d ∧ 0 < i ∧ 0 < j then
        walkAux t1 t2 tb fuel (i - 1) (j - 1) (token1 :: acc1) (token2 :: acc2)
      else if (tb i j).u ∧ 0 < i then
        let spacer :=
          if token2.kind = Kind.spacer
          then { token2 with alignment_spaces := token1.text.length }
          else mkAlignedSpacer token1.text.length
        walkAux t1 t2 tb fuel (i - 1) j (token1 :: acc1) (spacer :: acc2)
      else if (tb i j).l ∧ 0 < j then
        let spacer :=
          if token1.kind = Kind.spacer
          then { token1 with alignment_spaces := token2.text.length }
          else mkAlignedSpacer token2.text.length
        walkAux t1 t2 tb fuel i (j - 1) (spacer :: acc1) (token2 :: acc2)
      else
        some (acc1, acc2)
    | _, _ => none

/-- The annotation applied to one aligned pair by the post-pass
(lines 218-233): on differing texts, pad both to the longer length, mark
both aligned, and colour blue / magenta / red according to which side is a
`Spacer`. -/
def annotatePair (w1 w2 : Tok) : Tok × Tok :=
  if w1.text = w2.text then (w1, w2)
  else
    let maxLen := max w1.text.length w2.text.length
    let c := if w1.kind = Kind.spacer then 'b'
             else if w2.kind = Kind.spacer then 'p'
             else 'r'
    ({ w1 with alignment_spaces := maxLen - w1.text.length, aligned := true,
               color := some (colorMapping c) },
     { w2 with alignment_spaces := maxLen - w2.text.length, aligned := true,
               color := some (colorMapping c) })

/-- The post-pass `for w1, w2 in zip(aligned_text1.tokens,
aligned_text2.tokens)`: pairs up to the shorter length are annotated, any
excess is untouched (the two lists always have equal length in fact). -/
def annotateLists : List Tok → List Tok → List Tok × List Tok
  | [], l2 => ([], l2)
  | l1, [] => (l1, [])
  | w1 :: r1, w2 :: r2 =>
    let p := annotatePair w1 w2
    let rest := annotateLists r1 r2
    (p.1 :: rest.1, p.2 :: rest.2)

/-- `get_alignment_and_visualization_words(text1, text2, score_matrix,
traceback_matrix)`: the walk from `(n, m)` followed by the annotation
post-pass.  The `score_matrix` argument of the Python function is unused by
its body and therefore absent here; `none` models a raised `IndexError`. -/
def get_alignment_and_visualization_words (t1 t2 : List Tok) (tb : Nat → Nat → Trace) :
    Option (List Tok × List Tok) :=
  (walkAux t1 t2 tb (t1.length + t2.length + 1) t1.length t2.length [] []).map
    fun r => annotateLists r.1 r.2

/-! ### `Text.recalculate_indices` and the entry points -/

/-- Body of `Text.recalculate_indices` (strings.py, lines 440-457): walk the
token list assigning dense indices and start offsets, adding a one-character
separator before every following token that is not `Punctuation`,
`Whitespace` or `Spacer`. -/
def recalcAux : Nat → Nat → List Tok → List Tok
  | _, _, [] => []
  | i, start, tok :: rest =>
    let noSpace : Bool :=
      match rest with
      | next :: _ =>
        next.kind == Kind.punctuation || next.kind == Kind.whitespace ||
          next.kind == Kind.spacer
      | [] => false
    let offset : Nat := if rest ≠ [] ∧ noSpace = false then 1 else 0
    { tok with index := some i, start := some start } ::
      recalcAux (i + 1) (start + tok.text.length + offset) rest

/-- `Text.recalculate_indices` on a token list. -/
def recalculate_indices (l : List Tok) : List Tok := recalcAux 0 0 l

/-- `Text.to_string`: plain concatenation of the token texts. -/
def to_string (l : List Tok) : String := String.join (l.map Tok.text)

/-- `align_sentences(text1, text2)`: clear both inputs' alignment state
(done by the scorer, line 97-98), compute the matrices with the default
constants, run the traceback walk and post-pass, and reindex both aligned
sequences. -/
def align_sentences (t1 t2 : List Tok) : Option (List Tok × List Tok) :=
  let c1 := t1.map clearTok
  let c2 := t2.map clearTok
  let tb := nwTrace defaultParams c1 c2
  (get_alignment_and_visualization_words c1 c2 tb).map
    fun r => (recalculate_indices r.1, recalculate_indices r.2)

/-! ### The tokenizer (`whitespace_tokenize_from_nltk` and `create_token`)

`whitespace_tokenize_from_nltk` delegates word-boundary splitting to the
external `nltk.word_tokenize`, which is not part of this repository; the
embedding therefore takes the list of word-boundary units as a parameter.
The wrapper itself — locate each unit in the original text from the current
position, then emit every immediately following whitespace character as its
own one-character token, raising `ValueError` when a unit cannot be found —
is translated faithfully. -/

/-- Python's `str.isspace` on the ASCII whitespace characters (the model
restricts attention to ASCII input). -/
def pyIsSpace (c : Char) : Bool :=
  c = ' ' || c = '\t' || c = '\n' || c = '\x0b' || c = '\x0c' || c = '\r'

/-- Does `pat` occur in `text` starting exactly at `pos`? -/
def matchesAt (text pat : List Char) (pos : Nat) : Bool :=
  decide ((text.drop pos).take pat.length = pat)

/-- Helper scan for `findFrom`: try positions `pos`, `pos+1`, ... (at most
`steps` of them). -/
def findFromAux (text pat : List Char) : Nat → Nat → Option Nat
  | 0, _ => none
  | steps + 1, pos =>
    if matchesAt text pat pos then some pos else findFromAux text pat steps (pos + 1)

/-- Python `text.find(pat, start)`: index of the first occurrence of `pat`
at or after `start`, `none` when there is none (Python returns `-1`). -/
def findFrom (text pat : List Char) (start : Nat) : Option Nat :=
  findFromAux text pat (text.length + 1 - start) start

/-- The loop of `whitespace_tokenize_from_nltk` over the word-boundary
units: find the unit from the current index (a failed find models the
raised `ValueError`), emit it, then emit each immediately following
whitespace character as its own one-character token. -/
def wtfnAux (text : List Char) : List String → Nat → Option (List String)
  | [], _ => some []
  | tok :: rest, current =>
    match findFrom text tok.data current with
    | none => none
    | some start =>
      let afterTok := start + tok.data.length
      let run := (text.drop afterTok).takeWhile pyIsSpace
      (wtfnAux text rest (afterTok + run.length)).map
        fun out => tok :: (run.map fun c => String.mk [c]) ++ out

/-- `whitespace_tokenize_from_nltk(text)`, with the output of the external
`nltk.word_tokenize(text)` supplied as `nltkTokens`. -/
def whitespace_tokenize_from_nltk (nltkTokens : List String) (text : String) :
    Option (List String) :=
  wtfnAux text.data nltkTokens 0

/-- The fixed `PUNCTUATION_MARKS` set of `strings.py`. -/
def punctuationMarks : List String :=
  [".", ",", "!", "?", ":", ";", "(", ")", "[", "]", "\x7b", "\x7d", "\"", "'",
   "-", "—", "–", "…", "„", "“", "”", "''", "\""]

/-- Python `str.isdigit` (ASCII model): nonempty and all decimal digits. -/
def pyIsDigit (s : String) : Bool :=
  !s.data.isEmpty && s.data.all fun c => '0' ≤ c && c ≤ '9'

/-- One character of the `WORD_PATTERN` class
`[A-Za-zĄČĘĖĮŠŲŪŽąčęėįšųūž0-9\'-.]`: note that `\'-.'` is the character
range U+0027 – U+002E, which also admits `(`, `)`, `*`, `+` and `,`. -/
def wordChar (c : Char) : Bool :=
  ('A' ≤ c && c ≤ 'Z') || ('a' ≤ c && c ≤ 'z') ||
  c ∈ ['Ą', 'Č', 'Ę', 'Ė', 'Į', 'Š', 'Ų', 'Ū', 'Ž',
       'ą', 'č', 'ę', 'ė', 'į', 'š', 'ų', 'ū', 'ž'] ||
  ('0' ≤ c && c ≤ '9') || ('\'' ≤ c && c ≤ '.')

/-- `create_token`: classify a unit of text into a token class, in the
source's priority order. -/
def create_token (text : String) : Tok :=
  if text = " " then { text := text, kind := Kind.whitespace }
  else if text ∈ punctuationMarks then { text := text, kind := Kind.punctuation }
  else if pyIsDigit text then { text := text, kind := Kind.numeric }
  else if !text.data.isEmpty && text.data.all wordChar then { text := text, kind := Kind.word }
  else if text = "" then { text := text, kind := Kind.spacer }
  else if text = "\n" ∨ text = "\t" then { text := text, kind := Kind.special }
  else { text := text, kind := Kind.token }

/-- `Text(string)`: tokenize (with the word-boundary units supplied) and
reindex; `none` when the wrapper raises. -/
def text_from_string (nltkTokens : List String) (s : String) : Option (List Tok) :=
  (whitespace_tokenize_from_nltk nltkTokens s).map
    fun toks => recalculate_indices (toks.map create_token)

/-- `align_strings(s1, s2)` with the two word-boundary unit lists supplied
for the external tokenizer. -/
def align_strings (u1 u2 : List String) (s1 s2 : String) :
    Option (List Tok × List Tok) :=
  match text_from_string u1 s1, text_from_string u2 s2 with
  | some t1, some t2 => align_sentences t1 t2
  | _, _ => none

/-! ### Heap-passing model of the object mutation

Python `Token` objects are mutable and shared: `get_alignment_and_
visualization_words` inserts the very objects of the input `Text`s into the
aligned `Text`s, the post-pass mutates them, and `recalculate_indices` on
the aligned sequences overwrites their `index`/`start`.  To state this, the
same functions are re-run here in heap-passing style: the heap is a
`List Tok`, a token reference is an index into it, and a `Text` is a list
of references. -/

/-- Read a token object from the heap (junk on a dangling reference; the
modelled runs never have one). -/
def hGet (heap : List Tok) (r : Nat) : Tok := heap.getD r dummyTok

/-- Overwrite a token object on the heap. -/
def hSet (heap : List Tok) (r : Nat) (t : Tok) : List Tok := heap.set r t

/-- `Text.clear_alignment` over the heap. -/
def clearH : List Nat → List Tok → List Tok
  | [], heap => heap
  | r :: rest, heap => clearH rest (hSet heap r (clearTok (hGet heap r)))

/-- The traceback walk in heap-passing style: identical control flow to
`walkAux`, but aligned sequences are reference lists, a reused spacer is
mutated in place (same reference re-inserted), and a fresh spacer is
allocated at the end of the heap. -/
def walkHAux (ids1 ids2 : List Nat) (tb : Nat → Nat → Trace) :
    Nat → Nat → Nat → List Nat → List Nat → List Tok →
    Option (List Nat × List Nat × List Tok)
  | 0, _, _, _, _, _ => none
  | fuel + 1, i, j, acc1, acc2, heap =>
    match (if 0 < i then ids1.get? (i - 1) else ids1.get? 0),
          (if 0 < j then ids2.get? (j - 1) else ids2.get? 0) with
    | some r1, some r2 =>
      let token1 := hGet heap r1
      let token2 := hGet heap r2
      if (tb i j).d ∧ 0 < i ∧ 0 < j then
        walkHAux ids1 ids2 tb fuel (i - 1) (j - 1) (r1 :: acc1) (r2 :: acc2) heap
      else if (tb i j).u ∧ 0 < i then
        if token2.kind = Kind.spacer then
          walkHAux ids1 ids2 tb fuel (i - 1) j (r1 :: acc1) (r2 :: acc2)
            (hSet heap r2 { token2 with alignment_spaces := token1.text.length })
        else
          walkHAux ids1 ids2 tb fuel (i - 1) j (r1 :: acc1) (heap.length :: acc2)
            (heap ++ [mkAlignedSpacer token1.text.length])
      else if (tb i j).l ∧ 0 < j then
        if token1.kind = Kind.spacer then
          walkHAux ids1 ids2 tb fuel i (j - 1) (r1 :: acc1) (r2 :: acc2)
            (hSet heap r1 { token1 with alignment_spaces := token2.text.length })
        else
          walkHAux ids1 ids2 tb fuel i (j - 1) (heap.length :: acc1) (r2 :: acc2)
            (heap ++ [mkAlignedSpacer token2.text.length])
      else
        some (acc1, acc2, heap)
    | _, _ => none

/-- The annotation post-pass over the heap: each differing pair's two
objects are updated in place through their references. -/
def annotateH : List Nat → List Nat → List Tok → List Tok
  | r1 :: rest1, r2 :: rest2, heap =>
    let w1 := hGet heap r1
    let w2 := hGet heap r2
    if w1.text = w2.text then annotateH rest1 rest2 heap
    else
      let maxLen := max w1.text.length w2.text.length
      let c := if w1.kind = Kind.spacer then 'b'
               else if w2.kind = Kind.spacer then 'p'
               else 'r'
      let heap1 := hSet heap r1
        { w1 with alignment_spaces := maxLen - w1.text.length, aligned := true,
                  color := some (colorMapping c) }
      let heap2 := hSet heap1 r2
        { hGet heap1 r2 with alignment_spaces := maxLen - w2.text.length,
                             aligned := true, color := some (colorMapping c) }
      annotateH rest1 rest2 heap2
  | _, _, heap => heap

/-- `Text.recalculate_indices` over the heap: assigns `index`/`start`
through the references of the given sequence. -/
def recalcHAux : Nat → Nat → List Nat → List Tok → List Tok
  | _, _, [], heap => heap
  | i, start, r :: rest, heap =>
    let tok := hGet heap r
    let noSpace : Bool :=
      match rest with
      | next :: _ =>
        (hGet heap next).kind == Kind.punctuation ||
          (hGet heap next).kind == Kind.whitespace ||
          (hGet heap next).kind == Kind.spacer
      | [] => false
    let offset : Nat := if rest ≠ [] ∧ noSpace = false then 1 else 0
    recalcHAux (i + 1) (start + tok.text.length + offset) rest
      (hSet heap r { tok with index := some i, start := some start })

/-- `align_sentences` in heap-passing style: clear both inputs, score the
cleared tokens, walk, annotate, and reindex both aligned reference lists.
Returns the aligned reference lists and the final heap. -/
def align_sentencesH (ids1 ids2 : List Nat) (heap : List Tok) :
    Option (List Nat × List Nat × List Tok) :=
  let heap1 := clearH ids2 (clearH ids1 heap)
  let t1 := ids1.map (hGet heap1)
  let t2 := ids2.map (hGet heap1)
  let tb := nwTrace defaultParams t1 t2
  (walkHAux ids1 ids2 tb (ids1.length + ids2.length + 1) ids1.length ids2.length
      [] [] heap1).map
    fun r =>
      let heap2 := annotateH r.1 r.2.1 r.2.2
      let heap3 := recalcHAux 0 0 r.2.1 (recalcHAux 0 0 r.1 heap2)
      (r.1, r.2.1, heap3)

/-- A plain `Word` token as the tokenizer builds it (used by concrete
instances below). -/
def wordTok (s : String) : Tok := { text := s, kind := Kind.word }

/-- Modelled from the spec: `nltk.word_tokenize` is external to this
repository; the spec describes it only as "a word-boundary tokenizer"
producing word/punctuation-level units.  `covers text units` states that
the supplied unit list is a faithful such output for `text`: each unit is
nonempty, whitespace-free, and found verbatim at the current scan position,
and the units together with the whitespace runs separating them exhaust the
text (in particular the text has no leading whitespace). -/
def covers : List Char → List String → Bool
  | text, [] => text.isEmpty
  | text, u :: rest =>
    !u.data.isEmpty && u.data.all (fun c => !pyIsSpace c) &&
    decide (text.take u.data.length = u.data) &&
    covers ((text.drop u.data.length).dropWhile pyIsSpace) rest

/-- A two-token heap holding the one-token texts `"a"` and `"a"` as their
`Text` containers leave them (dense `index`/`start` assigned). -/
def exHeapEq : List Tok :=
  [{ wordTok "a" with index := some 0, start := some 0 },
   { wordTok "a" with index := some 0, start := some 0 }]

/-- A four-token heap holding the texts `"b"` (reference `[0]`) and
`"a b"` (references `[1, 2, 3]`) as their `Text` containers leave them. -/
def exHeapBA : List Tok :=
  [{ wordTok "b" with index := some 0, start := some 0 },
   { wordTok "a" with index := some 0, start := some 0 },
   { text := " ", kind := Kind.whitespace, index := some 1, start := some 2 },
   { wordTok "b" with index := some 2, start := some 3 }]

/-- The heap of `exHeapEq` as `align_sentencesH [0] [1]` leaves it: the
alignment state was cleared (colour `none`) and reindexing wrote back the
same dense `index`/`start` values. -/
def exHeapEqFinal : List Tok :=
  [{ text := "a", kind := Kind.word, index := some 0, start := some 0,
     aligned := false, alignment_spaces := 0, color := none },
   { text := "a", kind := Kind.word, index := some 0, start := some 0,
     aligned := false, alignment_spaces := 0, color := none }]

/-- The heap of `exHeapBA` as `align_sentencesH [0] [1, 2, 3]` leaves it:
the shared token `0` (`"b"` of the first text) now carries the aligned
sequence's `index 2`/`start 1`; the shared tokens `1`, `2` were annotated
in place (aligned, blue); two fresh spacers were allocated at `4`, `5`. -/
def exHeapBAFinal : List Tok :=
  [{ text := "b", kind := Kind.word, index := some 2, start := some 1,
     aligned := false, alignment_spaces := 0, color := none },
   { text := "a", kind := Kind.word, index := some 0, start := some 0,
     aligned := true, alignment_spaces := 0, color := some "\x1b[34m" },
   { text := " ", kind := Kind.whitespace, index := some 1, start := some 1,
     aligned := true, alignment_spaces := 0, color := some "\x1b[34m" },
   { text := "b", kind := Kind.word, index := some 2, start := some 3,
     aligned := false, alignment_spaces := 0, color := none },
   { text := "", kind := Kind.spacer, index := some 1, start := some 0,
     aligned := true, alignment_spaces := 1, color := some "\x1b[34m" },
   { text := "", kind := Kind.spacer, index := some 0, start := some 0,
     aligned := true, alignment_spaces := 1, color := some "\x1b[34m" }]

/-! ### Lemmas and claim theorems -/

theorem Q.toRat_ofInt (n : Int) : (Q.ofInt n).toRat = (n : ℚ) := by
  simp [Q.ofInt, Q.toRat]

theorem Q.den_add (a b : Q) (ha : a.den ≠ 0) (hb : b.den ≠ 0) : (Q.add a b).den ≠ 0 := by
  simp [Q.add, ha, hb]

theorem Q.den_mul (a b : Q) (ha : a.den ≠ 0) (hb : b.den ≠ 0) : (Q.mul a b).den ≠ 0 := by
  simp [Q.mul, ha, hb]

theorem Q.qmax_cases (a b : Q) : Q.qmax a b = a ∨ Q.qmax a b = b := by
  unfold Q.qmax; split <;> simp

theorem Q.toRat_add (a b : Q) (ha : a.den ≠ 0) (hb : b.den ≠ 0) :
    (Q.add a b).toRat = a.toRat + b.toRat := by
  have ha' : ((a.den : ℚ)) ≠ 0 := Nat.cast_ne_zero.mpr ha
  have hb' : ((b.den : ℚ)) ≠ 0 := Nat.cast_ne_zero.mpr hb
  simp only [Q.add, Q.toRat]
  push_cast
  field_simp

theorem Q.toRat_mul (a b : Q) :
    (Q.mul a b).toRat = a.toRat * b.toRat := by
  simp only [Q.mul, Q.toRat, Nat.cast_mul, Int.cast_mul]
  rw [div_mul_div_comm]

theorem Q.blev_iff (a b : Q) (ha : a.den ≠ 0) (hb : b.den ≠ 0) :
    Q.blev a b = true ↔ a.toRat ≤ b.toRat := by
  have ha' : (0 : ℚ) < (a.den : ℚ) := Nat.cast_pos.mpr (Nat.pos_of_ne_zero ha)
  have hb' : (0 : ℚ) < (b.den : ℚ) := Nat.cast_pos.mpr (Nat.pos_of_ne_zero hb)
  simp only [Q.blev, Q.toRat, decide_eq_true_eq]
  rw [div_le_div_iff ha' hb']
  constructor
  · intro h; exact_mod_cast h
  · intro h; exact_mod_cast h

theorem Q.beqv_iff (a b : Q) (ha : a.den ≠ 0) (hb : b.den ≠ 0) :
    Q.beqv a b = true ↔ a.toRat = b.toRat := by
  have ha' : (0 : ℚ) < (a.den : ℚ) := Nat.cast_pos.mpr (Nat.pos_of_ne_zero ha)
  have hb' : (0 : ℚ) < (b.den : ℚ) := Nat.cast_pos.mpr (Nat.pos_of_ne_zero hb)
  simp only [Q.beqv, Q.toRat, beq_iff_eq]
  rw [div_eq_div_iff (ne_of_gt ha') (ne_of_gt hb')]
  constructor
  · intro h; exact_mod_cast h
  · intro h; exact_mod_cast h

theorem Q.toRat_qmax (a b : Q) (ha : a.den ≠ 0) (hb : b.den ≠ 0) :
    (Q.qmax a b).toRat = max a.toRat b.toRat := by
  unfold Q.qmax
  by_cases h : Q.blev a b = true
  · rw [if_pos h, max_eq_right ((Q.blev_iff a b ha hb).mp h)]
  · have h' : ¬ a.toRat ≤ b.toRat := fun hle => h ((Q.blev_iff a b ha hb).mpr hle)
    rw [if_neg h, max_eq_left (le_of_not_le h')]

theorem dpVal_le (s1 s2 : List Char) : ∀ i j, dpVal s1 s2 i j ≤ min i j := by
  intro i
  induction i with
  | zero => intro j; simp [dpVal]
  | succ i ih =>
    intro j
    cases j with
    | zero => simp [dpVal]
    | succ j =>
      simp only [dpVal]
      rcases h1 : s1[i]? with _ | a
      · simp
      rcases h2 : s2[j]? with _ | b
      · simp
      by_cases hab : a = b
      · simp only [if_pos hab]
        have := ih j
        omega
      · simp [hab]

theorem dpVal_self (s : List Char) : ∀ i, i ≤ s.length → dpVal s s i i = i := by
  intro i
  induction i with
  | zero => intro _; simp [dpVal]
  | succ i ih =>
    intro hi
    have hlt : i < s.length := by omega
    obtain ⟨a, ha⟩ : ∃ a, s[i]? = some a := by
      rw [List.getElem?_eq_getElem hlt]; exact ⟨_, rfl⟩
    simp only [dpVal]
    rw [ha]
    simp [ih (by omega)]

theorem dpVal_chars (s1 s2 : List Char) :
    ∀ i j k, k < dpVal s1 s2 i j →
      s1[i - dpVal s1 s2 i j + k]? = s2[j - dpVal s1 s2 i j + k]? := by
  intro i
  induction i with
  | zero => intro j k hk; simp [dpVal] at hk
  | succ i ih =>
    intro j k hk
    cases j with
    | zero => simp [dpVal] at hk
    | succ j =>
      rcases h1 : s1[i]? with _ | a
      · rw [show dpVal s1 s2 (i + 1) (j + 1) = 0 from by simp [dpVal, h1]] at hk
        omega
      rcases h2 : s2[j]? with _ | b
      · rw [show dpVal s1 s2 (i + 1) (j + 1) = 0 from by simp [dpVal, h1, h2]] at hk
        omega
      by_cases hab : a = b
      · have hd : dpVal s1 s2 (i + 1) (j + 1) = dpVal s1 s2 i j + 1 := by
          simp [dpVal, h1, h2, hab]
        rw [hd] at hk ⊢
        have hle1 : dpVal s1 s2 i j ≤ i :=
          le_trans (dpVal_le s1 s2 i j) (min_le_left _ _)
        have hle2 : dpVal s1 s2 i j ≤ j :=
          le_trans (dpVal_le s1 s2 i j) (min_le_right _ _)
        by_cases hk1 : k < dpVal s1 s2 i j
        · have hrec := ih j k hk1
          have e1 : i + 1 - (dpVal s1 s2 i j + 1) + k = i - dpVal s1 s2 i j + k := by omega
          have e2 : j + 1 - (dpVal s1 s2 i j + 1) + k = j - dpVal s1 s2 i j + k := by omega
          rw [e1, e2]
          exact hrec
        · have hkeq : k = dpVal s1 s2 i j := by omega
          subst hkeq
          have e1 : i + 1 - (dpVal s1 s2 i j + 1) + dpVal s1 s2 i j = i := by omega
          have e2 : j + 1 - (dpVal s1 s2 i j + 1) + dpVal s1 s2 i j = j := by omega
          rw [e1, e2, h1, h2, hab]
      · rw [show dpVal s1 s2 (i + 1) (j + 1) = 0 from by simp [dpVal, h1, h2, hab]] at hk
        omega

theorem mem_lcsCells (n m : Nat) (x : Nat × Nat) :
    x ∈ lcsCells n m ↔ (1 ≤ x.1 ∧ x.1 ≤ n) ∧ (1 ≤ x.2 ∧ x.2 ≤ m) := by
  obtain ⟨i, j⟩ := x
  simp only [lcsCells, List.mem_flatMap, List.mem_map, List.mem_range'_1]
  constructor
  · rintro ⟨a, ⟨ha1, ha2⟩, b, ⟨hb1, hb2⟩, heq⟩
    obtain ⟨rfl, rfl⟩ := Prod.mk.injEq .. ▸ And.intro (congrArg Prod.fst heq) (congrArg Prod.snd heq)
    exact ⟨⟨ha1, by omega⟩, hb1, by omega⟩
  · rintro ⟨⟨h1, h2⟩, h3, h4⟩
    exact ⟨i, ⟨h1, by omega⟩, j, ⟨h3, by omega⟩, rfl⟩

theorem lcsUpd_fst_le (s1 s2 : List Char) (acc x : Nat × Nat) :
    acc.1 ≤ (lcsUpd s1 s2 acc x).1 := by
  simp only [lcsUpd]
  split
  · next h => exact le_of_lt h
  · exact le_refl _

theorem lcsFold_fst_le (s1 s2 : List Char) (l : List (Nat × Nat)) :
    ∀ acc, acc.1 ≤ (l.foldl (lcsUpd s1 s2) acc).1 := by
  induction l with
  | nil => intro acc; simp
  | cons x xs ih =>
    intro acc
    rw [List.foldl_cons]
    exact le_trans (lcsUpd_fst_le s1 s2 acc x) (ih _)

theorem lcsFold_ge (s1 s2 : List Char) (l : List (Nat × Nat)) :
    ∀ acc, ∀ x ∈ l, dpVal s1 s2 x.1 x.2 ≤ (l.foldl (lcsUpd s1 s2) acc).1 := by
  induction l with
  | nil => intro acc x hx; simp at hx
  | cons y ys ih =>
    intro acc x hx
    rw [List.foldl_cons]
    rcases List.mem_cons.mp hx with rfl | hx'
    · have h1 : dpVal s1 s2 x.1 x.2 ≤ (lcsUpd s1 s2 acc x).1 := by
        simp only [lcsUpd]
        split
        · exact le_refl _
        · next h => omega
      exact le_trans h1 (lcsFold_fst_le s1 s2 ys _)
    · exact ih _ x hx'

theorem lcsFold_attain (s1 s2 : List Char) (l : List (Nat × Nat)) :
    ∀ acc, l.foldl (lcsUpd s1 s2) acc = acc ∨
      ∃ x ∈ l, l.foldl (lcsUpd s1 s2) acc = (dpVal s1 s2 x.1 x.2, x.1) := by
  induction l with
  | nil => intro acc; left; rfl
  | cons y ys ih =>
    intro acc
    rw [List.foldl_cons]
    rcases ih (lcsUpd s1 s2 acc y) with h | ⟨x, hx, h⟩
    · rw [h]
      by_cases hlt : acc.1 < dpVal s1 s2 y.1 y.2
      · right
        exact ⟨y, List.mem_cons_self _ _, by simp [lcsUpd, hlt]⟩
      · left
        simp [lcsUpd, hlt]
    · right
      exact ⟨x, List.mem_cons_of_mem _ hx, h⟩

theorem lcsScan_le (s1 s2 : List Char) :
    (lcsScan s1 s2).1 ≤ s1.length ∧ (lcsScan s1 s2).1 ≤ s2.length := by
  unfold lcsScan
  rcases lcsFold_attain s1 s2 (lcsCells s1.length s2.length) (0, 0) with h | ⟨x, hx, h⟩
  · rw [h]; exact ⟨Nat.zero_le _, Nat.zero_le _⟩
  · obtain ⟨⟨_, hx2⟩, _, hy2⟩ := (mem_lcsCells _ _ _).mp hx
    have hd := dpVal_le s1 s2 x.1 x.2
    rw [h]
    constructor <;> · simp only; omega

theorem lcsScan_row_bounds (s1 s2 : List Char) :
    (lcsScan s1 s2).1 ≤ (lcsScan s1 s2).2 ∧ (lcsScan s1 s2).2 ≤ s1.length := by
  unfold lcsScan
  rcases lcsFold_attain s1 s2 (lcsCells s1.length s2.length) (0, 0) with h | ⟨x, hx, h⟩
  · rw [h]; exact ⟨le_refl _, Nat.zero_le _⟩
  · obtain ⟨⟨_, hx2⟩, _, _⟩ := (mem_lcsCells _ _ _).mp hx
    have hd := dpVal_le s1 s2 x.1 x.2
    rw [h]
    constructor <;> · simp only; omega

theorem length_lcs (s1 s2 : List Char) :
    (longest_common_substring s1 s2).length = (lcsScan s1 s2).1 := by
  unfold longest_common_substring
  obtain ⟨hb1, hb2⟩ := lcsScan_row_bounds s1 s2
  by_cases h0 : (lcsScan s1 s2).1 = 0
  · simp [h0]
  · simp only [if_neg h0, List.length_take, List.length_drop]
    omega

theorem lcsScan_self (s : List Char) : (lcsScan s s).1 = s.length := by
  rcases Nat.eq_zero_or_pos s.length with h0 | hpos
  · have hcells : lcsCells s.length s.length = [] := by
      rw [h0]; rfl
    unfold lcsScan
    rw [hcells]
    simpa using h0.symm
  · apply le_antisymm (lcsScan_le s s).1
    have hmem : ((s.length, s.length) : Nat × Nat) ∈ lcsCells s.length s.length :=
      (mem_lcsCells _ _ _).mpr ⟨⟨hpos, le_refl _⟩, hpos, le_refl _⟩
    have hge := lcsFold_ge s s (lcsCells s.length s.length) (0, 0) _ hmem
    rw [dpVal_self s s.length (le_refl _)] at hge
    exact hge

theorem lcs_full_eq (s t : List Char) (h : (lcsScan s t).1 = s.length)
    (hlen : t.length = s.length) : t = s := by
  rcases Nat.eq_zero_or_pos s.length with h0 | hpos
  · rw [List.length_eq_zero.mp (by omega : t.length = 0),
      List.length_eq_zero.mp h0]
  · unfold lcsScan at h
    rcases lcsFold_attain s t (lcsCells s.length t.length) (0, 0) with hh | ⟨x, hx, hh⟩
    · rw [hh] at h
      simp at h
      omega
    · obtain ⟨⟨_, hx2⟩, _, hy2⟩ := (mem_lcsCells _ _ _).mp hx
      rw [hh] at h
      simp only at h
      have hd := dpVal_le s t x.1 x.2
      apply List.ext_getElem?
      intro k
      by_cases hk : k < s.length
      · have hchars := dpVal_chars s t x.1 x.2 k (by rw [h]; exact hk)
        rw [h] at hchars
        have e1 : x.1 - s.length + k = k := by omega
        have e2 : x.2 - s.length + k = k := by omega
        rw [e1, e2] at hchars
        exact hchars.symm
      · rw [List.getElem?_eq_none (by omega), List.getElem?_eq_none (by omega)]

theorem safeToks_of_no_original (a b : Tok) (ha : a.original = none) :
    SafeToks a b := by
  unfold SafeToks srcTextOf
  rw [ha]
  by_cases h : a.text = b.text
  · exact Or.inl h
  · right
    rcases Nat.eq_zero_or_pos a.text.length with h0 | hpos
    · rcases Nat.eq_zero_or_pos b.text.length with h0' | hpos'
      · exfalso
        apply h
        have ea : a.text = "" := by
          cases hx : a.text with
          | mk l => rw [hx] at h0; simp [String.length] at h0; simp [h0]
        have eb : b.text = "" := by
          cases hx : b.text with
          | mk l => rw [hx] at h0'; simp [String.length] at h0'; simp [h0']
        rw [ea, eb]
      · exact lt_of_lt_of_le hpos' (le_max_right _ _)
    · exact lt_of_lt_of_le hpos (le_max_left _ _)

theorem safePair_of_no_original (t1 t2 : List Tok)
    (h : ∀ a ∈ t1, a.original = none) : SafePair t1 t2 :=
  fun a ha b _ => safeToks_of_no_original a b (h a ha)

theorem nwDiag_den (p : ScoreParams) (hp : PDen p) (a b : Tok) (hs : SafeToks a b) :
    (nwDiag p a b).den ≠ 0 := by
  obtain ⟨h1, h2, h3, h4, h5, h6⟩ := hp
  by_cases heq : a.text = b.text
  · simpa [nwDiag, heq] using h1
  · have hmax : 0 < max (srcTextOf a).length b.text.length := by
      rcases hs with h | h
      · exact absurd h heq
      · exact h
    rcases ho : a.original with _ | o <;>
      · simp only [nwDiag, if_neg heq, ho, srcTextOf] at hmax ⊢
        simp only [Q.add, Q.mul, Q.ofInt]
        split_ifs <;>
          simp_all [Nat.mul_eq_zero] <;> omega

/-- The matrices at an interior cell unfold to `fillCell` on the two
compared tokens and the three neighbouring scores. -/
theorem nwCell_succ_succ (p : ScoreParams) (t1 t2 : List Tok) (i j : Nat) :
    nwCell p t1 t2 (i + 1) (j + 1) =
      fillCell p (t1.getD i dummyTok) (t2.getD j dummyTok)
        (nwScore p t1 t2 i j) (nwScore p t1 t2 i (j + 1))
        (nwScore p t1 t2 (i + 1) j) := rfl

theorem nwCell_zero_left (p : ScoreParams) (t1 t2 : List Tok) (j : Nat) :
    nwCell p t1 t2 0 j =
      (Q.mul p.gap_score (Q.ofInt j), ⟨false, false, decide (0 < j)⟩) := rfl

theorem nwCell_succ_zero (p : ScoreParams) (t1 t2 : List Tok) (i : Nat) :
    nwCell p t1 t2 (i + 1) 0 =
      (Q.mul p.gap_score (Q.ofInt (i + 1)), ⟨false, true, false⟩) := rfl

theorem fillCell_den (p : ScoreParams) (a b : Tok) (x y z : Q)
    (hgap : p.gap_score.den ≠ 0) (hd : (nwDiag p a b).den ≠ 0)
    (hx : x.den ≠ 0) (hy : y.den ≠ 0) (hz : z.den ≠ 0) :
    (fillCell p a b x y z).1.den ≠ 0 := by
  simp only [fillCell]
  have hm : (Q.add x (nwDiag p a b)).den ≠ 0 := Q.den_add _ _ hx hd
  have hdel : (Q.add y p.gap_score).den ≠ 0 := Q.den_add _ _ hy hgap
  have hins : (Q.add z p.gap_score).den ≠ 0 := Q.den_add _ _ hz hgap
  rcases Q.qmax_cases (Q.qmax (Q.add x (nwDiag p a b)) (Q.add y p.gap_score))
      (Q.add z p.gap_score) with h | h
  · rcases Q.qmax_cases (Q.add x (nwDiag p a b)) (Q.add y p.gap_score) with h2 | h2 <;>
      rw [h, h2] <;> assumption
  · rw [h]; exact hins

theorem nwScore_den (p : ScoreParams) (hp : PDen p) (t1 t2 : List Tok)
    (hs : SafePair t1 t2) :
    ∀ i j, i ≤ t1.length → j ≤ t2.length → (nwScore p t1 t2 i j).den ≠ 0 := by
  intro i
  induction i with
  | zero =>
    intro j _ _
    simp [nwScore, nwCell_zero_left, Q.mul, Q.ofInt, hp.2.2.1]
  | succ i ih =>
    intro j
    induction j with
    | zero =>
      intro _ _
      simp [nwScore, nwCell_succ_zero, Q.mul, Q.ofInt, hp.2.2.1]
    | succ j ihj =>
      intro hi hj
      have hdiag := ih j (by omega) (by omega)
      have hup := ih (j + 1) (by omega) hj
      have hleft := ihj hi (by omega)
      have hsafe : SafeToks (t1.getD i dummyTok) (t2.getD j dummyTok) := by
        apply hs
        · rw [List.getD_eq_getElem t1 dummyTok (by omega)]
          exact List.getElem_mem _
        · rw [List.getD_eq_getElem t2 dummyTok (by omega)]
          exact List.getElem_mem _
      have hdd := nwDiag_den p hp _ _ hsafe
      rw [nwScore, nwCell_succ_succ]
      exact fillCell_den p _ _ _ _ _ hp.2.2.1 hdd hdiag hup hleft

/-- The score value and the three tags of an interior cell, read in `ℚ`:
the score is the maximum of the three candidates, and each tag holds
exactly when its candidate attains that maximum. -/
theorem fillCell_toRat (p : ScoreParams) (a b : Tok) (x y z : Q)
    (hgap : p.gap_score.den ≠ 0) (hd : (nwDiag p a b).den ≠ 0)
    (hx : x.den ≠ 0) (hy : y.den ≠ 0) (hz : z.den ≠ 0) :
    (fillCell p a b x y z).1.toRat =
      max (max (x.toRat + (nwDiag p a b).toRat) (y.toRat + p.gap_score.toRat))
          (z.toRat + p.gap_score.toRat) ∧
    ((fillCell p a b x y z).2.d = true ↔
      (fillCell p a b x y z).1.toRat = x.toRat + (nwDiag p a b).toRat) ∧
    ((fillCell p a b x y z).2.u = true ↔
      (fillCell p a b x y z).1.toRat = y.toRat + p.gap_score.toRat) ∧
    ((fillCell p a b x y z).2.l = true ↔
      (fillCell p a b x y z).1.toRat = z.toRat + p.gap_score.toRat) := by
  have hm := Q.den_add x _ hx hd
  have hdel := Q.den_add y _ hy hgap
  have hins := Q.den_add z _ hz hgap
  have hmax1 : (Q.qmax (Q.add x (nwDiag p a b)) (Q.add y p.gap_score)).den ≠ 0 := by
    rcases Q.qmax_cases (Q.add x (nwDiag p a b)) (Q.add y p.gap_score) with h | h <;>
      rw [h] <;> assumption
  have hmax2 : (Q.qmax (Q.qmax (Q.add x (nwDiag p a b)) (Q.add y p.gap_score))
      (Q.add z p.gap_score)).den ≠ 0 := by
    rcases Q.qmax_cases (Q.qmax (Q.add x (nwDiag p a b)) (Q.add y p.gap_score))
        (Q.add z p.gap_score) with h | h <;> rw [h]
    · exact hmax1
    · exact hins
  simp only [fillCell]
  refine ⟨?_, ?_, ?_, ?_⟩
  · rw [Q.toRat_qmax _ _ hmax1 hins, Q.toRat_qmax _ _ hm hdel,
      Q.toRat_add _ _ hx hd, Q.toRat_add _ _ hy hgap, Q.toRat_add _ _ hz hgap]
  · rw [Q.beqv_iff _ _ hmax2 hm, Q.toRat_add _ _ hx hd]
  · rw [Q.beqv_iff _ _ hmax2 hdel, Q.toRat_add _ _ hy hgap]
  · rw [Q.beqv_iff _ _ hmax2 hins, Q.toRat_add _ _ hz hgap]

theorem PDen_default : PDen defaultParams := by
  refine ⟨?_, ?_, ?_, ?_, ?_, ?_⟩ <;> simp [defaultParams]

theorem gap_toRat_default : (defaultParams.gap_score).toRat = -1 := by
  norm_num [defaultParams, Q.toRat]

theorem match_toRat_default : (defaultParams.match_score).toRat = 1 := by
  norm_num [defaultParams, Q.toRat]

theorem string_length_data (s : String) : s.length = s.data.length := rfl

/-- On equal texts the diagonal contribution is exactly the match score. -/
theorem nwDiag_toRat_eq_texts (a b : Tok) (heq : a.text = b.text) :
    (nwDiag defaultParams a b).toRat = 1 := by
  rw [nwDiag, if_pos heq, match_toRat_default]

/-- For a token without an `original` reference the diagonal contribution
never exceeds the match score `1`: the substring term is at most `3/2` of
`lcs/max_len ≤ 1` and the type bonus at most `1/2`, against the base
mismatch `-1`. -/
theorem nwDiag_toRat_le_one (a b : Tok) (ha : a.original = none) :
    (nwDiag defaultParams a b).toRat ≤ 1 := by
  by_cases heq : a.text = b.text
  · rw [nwDiag_toRat_eq_texts a b heq]
  · have hmax : 0 < max a.text.length b.text.length := by
      have := safeToks_of_no_original a b ha
      unfold SafeToks srcTextOf at this
      rw [ha] at this
      rcases this with h | h
      · exact absurd h heq
      · exact h
    have hm : (max a.text.length b.text.length : Nat) ≠ 0 := by omega
    have hlcs : (longest_common_substring a.text.data b.text.data).length ≤
        max a.text.length b.text.length := by
      rw [length_lcs]
      have := (lcsScan_le a.text.data b.text.data).1
      rw [string_length_data a.text, string_length_data b.text]
      omega
    simp only [nwDiag, if_neg heq, ha]
    set l := (longest_common_substring a.text.data b.text.data).length with hl
    set m := max a.text.length b.text.length with hmdef
    have hden1 : (Q.mul ⟨(l : Int), m⟩ defaultParams.substring_match_score).den ≠ 0 := by
      apply Q.den_mul
      · exact hm
      · simp [defaultParams]
    have hden2 : (Q.add defaultParams.mismatch_score
        (Q.mul ⟨(l : Int), m⟩ defaultParams.substring_match_score)).den ≠ 0 := by
      apply Q.den_add _ _ (by simp [defaultParams]) hden1
    have hbonusden : (if isinst a.kind b.kind && decide (1 < m)
        then defaultParams.type_match_score else Q.ofInt 0).den ≠ 0 := by
      split <;> simp [defaultParams, Q.ofInt]
    rw [Q.toRat_add _ _ (Q.den_add _ _ hden2 hbonusden) (by simp [Q.ofInt]),
      Q.toRat_add _ _ hden2 hbonusden,
      Q.toRat_add _ _ (by simp [defaultParams]) hden1, Q.toRat_mul, Q.toRat_ofInt]
    have hfrac : (Q.mk (l : Int) m).toRat ≤ 1 := by
      rw [Q.toRat]
      apply div_le_one_of_le
      · exact_mod_cast Nat.cast_le.mpr hlcs
      · positivity
    have hfrac0 : 0 ≤ (Q.mk (l : Int) m).toRat := by
      rw [Q.toRat]
      positivity
    have hsub : (defaultParams.substring_match_score).toRat = 3 / 2 := by
      norm_num [defaultParams, Q.toRat]
    have hmis : (defaultParams.mismatch_score).toRat = -1 := by
      norm_num [defaultParams, Q.toRat]
    have hbonus : (if isinst a.kind b.kind && decide (1 < m)
        then defaultParams.type_match_score else Q.ofInt 0).toRat ≤ 1 / 2 := by
      split
      · norm_num [defaultParams, Q.toRat]
      · norm_num [Q.ofInt, Q.toRat]
    rw [hsub, hmis]
    nlinarith [hfrac, hfrac0, hbonus]

/-- Upper bound on the self-alignment score matrix with the default
constants: any path to `(i, j)` takes at most `min i j` diagonal steps worth
at most `1` each and at least `i + j - 2 min i j` gap steps worth `-1`. -/
theorem selfScore_le (t : List Tok) (hno : ∀ a ∈ t, a.original = none) :
    ∀ i j, i ≤ t.length → j ≤ t.length →
      (nwScore defaultParams t t i j).toRat ≤ 3 * ((min i j : Nat) : ℚ) - i - j := by
  have hsafe : SafePair t t := safePair_of_no_original t t hno
  intro i
  induction i with
  | zero =>
    intro j _ _
    rw [nwScore, nwCell_zero_left]
    simp only [Q.toRat_mul, Q.toRat_ofInt, gap_toRat_default, Nat.zero_min]
    push_cast
    linarith
  | succ i ih =>
    intro j
    induction j with
    | zero =>
      intro hi _
      rw [nwScore, nwCell_succ_zero]
      simp only [Q.toRat_mul, Q.toRat_ofInt, gap_toRat_default, Nat.min_zero]
      push_cast
      linarith
    | succ j ihj =>
      intro hi hj
      have hdden := nwScore_den defaultParams PDen_default t t hsafe i j (by omega) (by omega)
      have huden := nwScore_den defaultParams PDen_default t t hsafe i (j + 1) (by omega) hj
      have hlden := nwScore_den defaultParams PDen_default t t hsafe (i + 1) j hi (by omega)
      have hmem1 : t.getD i dummyTok ∈ t := by
        rw [List.getD_eq_getElem t dummyTok (by omega)]
        exact List.getElem_mem _
      have hmem2 : t.getD j dummyTok ∈ t := by
        rw [List.getD_eq_getElem t dummyTok (by omega)]
        exact List.getElem_mem _
      have hdd := nwDiag_den defaultParams PDen_default _ _ (hsafe _ hmem1 _ hmem2)
      obtain ⟨hsc, _, _, _⟩ :=
        fillCell_toRat defaultParams (t.getD i dummyTok) (t.getD j dummyTok)
          _ _ _ PDen_default.2.2.1 hdd hdden huden hlden
      rw [nwScore, nwCell_succ_succ, hsc, gap_toRat_default]
      have hdiagb := ih j (by omega) (by omega)
      have hupb := ih (j + 1) (by omega) hj
      have hleftb := ihj hi (by omega)
      have hδ : (nwDiag defaultParams (t.getD i dummyTok) (t.getD j dummyTok)).toRat ≤ 1 :=
        nwDiag_toRat_le_one _ _ (hno _ hmem1)
      rw [Nat.succ_min_succ]
      have hn1 : min i (j + 1) ≤ min i j + 1 := by
        rw [min_def, min_def]
        split_ifs <;> omega
      have hn2 : min (i + 1) j ≤ min i j + 1 := by
        rw [min_def, min_def]
        split_ifs <;> omega
      have hc1 : ((min i (j + 1) : Nat) : ℚ) ≤ ((min i j : Nat) : ℚ) + 1 := by
        exact_mod_cast hn1
      have hc2 : ((min (i + 1) j : Nat) : ℚ) ≤ ((min i j : Nat) : ℚ) + 1 := by
        exact_mod_cast hn2
      apply max_le
      · apply max_le
        · push_cast at hdiagb ⊢
          linarith
        · push_cast at hupb hc1 ⊢
          linarith
      · push_cast at hleftb hc2 ⊢
        linarith

theorem Trace.ext' (a b : Trace) (h1 : a.d = b.d) (h2 : a.u = b.u) (h3 : a.l = b.l) :
    a = b := by
  cases a
  cases b
  simp only at h1 h2 h3
  rw [h1, h2, h3]

/-- On the diagonal of a self-alignment the score is exactly `i` (with the
default constants, for original-free tokens). -/
theorem selfScore_diag (t : List Tok) (hno : ∀ a ∈ t, a.original = none) :
    ∀ i, i ≤ t.length → (nwScore defaultParams t t i i).toRat = i := by
  have hsafe : SafePair t t := safePair_of_no_original t t hno
  intro i
  induction i with
  | zero =>
    intro _
    rw [nwScore, nwCell_zero_left]
    simp [Q.toRat_mul, Q.toRat_ofInt, gap_toRat_default]
  | succ i ih =>
    intro hi
    have hdden := nwScore_den defaultParams PDen_default t t hsafe i i (by omega) (by omega)
    have huden := nwScore_den defaultParams PDen_default t t hsafe i (i + 1) (by omega) hi
    have hlden := nwScore_den defaultParams PDen_default t t hsafe (i + 1) i hi (by omega)
    have hmem : t.getD i dummyTok ∈ t := by
      rw [List.getD_eq_getElem t dummyTok (by omega)]
      exact List.getElem_mem _
    have hdd := nwDiag_den defaultParams PDen_default _ _ (hsafe _ hmem _ hmem)
    obtain ⟨hsc, _, _, _⟩ :=
      fillCell_toRat defaultParams (t.getD i dummyTok) (t.getD i dummyTok)
        _ _ _ PDen_default.2.2.1 hdd hdden huden hlden
    rw [nwScore, nwCell_succ_succ, hsc, gap_toRat_default,
      nwDiag_toRat_eq_texts _ _ rfl, ih (by omega)]
    have hup := selfScore_le t hno i (i + 1) (by omega) hi
    have hleft := selfScore_le t hno (i + 1) i hi (by omega)
    rw [min_eq_left (by omega)] at hup
    rw [min_eq_right (by omega)] at hleft
    have h1 : (nwScore defaultParams t t i (i + 1)).toRat + -1 ≤ (i : ℚ) + 1 := by
      push_cast at hup ⊢
      linarith
    have h2 : (nwScore defaultParams t t (i + 1) i).toRat + -1 ≤ (i : ℚ) + 1 := by
      push_cast at hleft ⊢
      linarith
    rw [max_eq_left h1, max_eq_left h2]
    push_cast
    ring

/-- On the diagonal of a self-alignment every interior traceback cell
carries exactly the diagonal tag. -/
theorem selfTrace_diag (t : List Tok) (hno : ∀ a ∈ t, a.original = none) :
    ∀ i, i < t.length →
      nwTrace defaultParams t t (i + 1) (i + 1) = ⟨true, false, false⟩ := by
  have hsafe : SafePair t t := safePair_of_no_original t t hno
  intro i hi
  have hdden := nwScore_den defaultParams PDen_default t t hsafe i i (by omega) (by omega)
  have huden := nwScore_den defaultParams PDen_default t t hsafe i (i + 1) (by omega) (by omega)
  have hlden := nwScore_den defaultParams PDen_default t t hsafe (i + 1) i (by omega) (by omega)
  have hmem : t.getD i dummyTok ∈ t := by
    rw [List.getD_eq_getElem t dummyTok (by omega)]
    exact List.getElem_mem _
  have hdd := nwDiag_den defaultParams PDen_default _ _ (hsafe _ hmem _ hmem)
  obtain ⟨hsc, hdiff, huiff, hliff⟩ :=
    fillCell_toRat defaultParams (t.getD i dummyTok) (t.getD i dummyTok)
      _ _ _ PDen_default.2.2.1 hdd hdden huden hlden
  have hcell : (fillCell defaultParams (t.getD i dummyTok) (t.getD i dummyTok)
      (nwScore defaultParams t t i i) (nwScore defaultParams t t i (i + 1))
      (nwScore defaultParams t t (i + 1) i)).1.toRat = (i : ℚ) + 1 := by
    have := selfScore_diag t hno (i + 1) (by omega)
    rw [nwScore, nwCell_succ_succ] at this
    rw [this]
    push_cast
    ring
  have hdiagval : (nwScore defaultParams t t i i).toRat +
      (nwDiag defaultParams (t.getD i dummyTok) (t.getD i dummyTok)).toRat = (i : ℚ) + 1 := by
    rw [nwDiag_toRat_eq_texts _ _ rfl, selfScore_diag t hno i (by omega)]
  have hup := selfScore_le t hno i (i + 1) (by omega) (by omega)
  have hleft := selfScore_le t hno (i + 1) i (by omega) (by omega)
  rw [min_eq_left (by omega)] at hup
  rw [min_eq_right (by omega)] at hleft
  have hdtag : (fillCell defaultParams (t.getD i dummyTok) (t.getD i dummyTok)
      (nwScore defaultParams t t i i) (nwScore defaultParams t t i (i + 1))
      (nwScore defaultParams t t (i + 1) i)).2.d = true := by
    apply hdiff.mpr
    rw [hcell, hdiagval]
  have hutag : (fillCell defaultParams (t.getD i dummyTok) (t.getD i dummyTok)
      (nwScore defaultParams t t i i) (nwScore defaultParams t t i (i + 1))
      (nwScore defaultParams t t (i + 1) i)).2.u = false := by
    cases hcase : (fillCell defaultParams (t.getD i dummyTok) (t.getD i dummyTok)
        (nwScore defaultParams t t i i) (nwScore defaultParams t t i (i + 1))
        (nwScore defaultParams t t (i + 1) i)).2.u with
    | false => rfl
    | true =>
      exfalso
      have := huiff.mp hcase
      rw [hcell, gap_toRat_default] at this
      push_cast at hup
      linarith
  have hltag : (fillCell defaultParams (t.getD i dummyTok) (t.getD i dummyTok)
      (nwScore defaultParams t t i i) (nwScore defaultParams t t i (i + 1))
      (nwScore defaultParams t t (i + 1) i)).2.l = false := by
    cases hcase : (fillCell defaultParams (t.getD i dummyTok) (t.getD i dummyTok)
        (nwScore defaultParams t t i i) (nwScore defaultParams t t i (i + 1))
        (nwScore defaultParams t t (i + 1) i)).2.l with
    | false => rfl
    | true =>
      exfalso
      have := hliff.mp hcase
      rw [hcell, gap_toRat_default] at this
      push_cast at hleft
      linarith
  rw [nwTrace, nwCell_succ_succ]
  exact Trace.ext' _ _ hdtag hutag hltag

/-- Every walk step pushes one token onto each accumulator, so a successful
walk returns lists whose length difference equals that of the
accumulators. -/
theorem walkAux_lengths (t1 t2 : List Tok) (tb : Nat → Nat → Trace) :
    ∀ fuel i j a1 a2 r, walkAux t1 t2 tb fuel i j a1 a2 = some r →
      a1.length = a2.length → r.1.length = r.2.length := by
  intro fuel
  induction fuel with
  | zero =>
    intro i j a1 a2 r h
    simp [walkAux] at h
  | succ fuel ih =>
    intro i j a1 a2 r h hlen
    rw [walkAux] at h
    rcases h1 : (if 0 < i then t1.get? (i - 1) else t1.get? 0) with _ | tok1 <;>
      rw [h1] at h
    · simp at h
    rcases h2 : (if 0 < j then t2.get? (j - 1) else t2.get? 0) with _ | tok2 <;>
      rw [h2] at h
    · simp at h
    simp only at h
    split_ifs at h
    all_goals
      first
        | exact ih _ _ _ _ r h (by simp [hlen])
        | (rcases Option.some.inj h with rfl; exact hlen)

/-- The annotation post-pass leaves the lengths of both lists unchanged. -/
theorem annotateLists_lengths :
    ∀ l1 l2 : List Tok, (annotateLists l1 l2).1.length = l1.length ∧
      (annotateLists l1 l2).2.length = l2.length := by
  intro l1
  induction l1 with
  | nil => intro l2; cases l2 <;> simp [annotateLists]
  | cons w1 r1 ih =>
    intro l2
    cases l2 with
    | nil => simp [annotateLists]
    | cons w2 r2 =>
      have := ih r2
      simp only [annotateLists, List.length_cons]
      omega

/-- With nonempty inputs every token lookup of the walk succeeds, and each
move strictly decreases `i + j`, so fuel `i + j + 1` always suffices: the
walk always terminates in the `break` case with a result. -/
theorem walkAux_total (t1 t2 : List Tok) (tb : Nat → Nat → Trace)
    (h1 : t1 ≠ []) (h2 : t2 ≠ []) :
    ∀ fuel i j a1 a2, i ≤ t1.length → j ≤ t2.length → i + j < fuel →
      ∃ r, walkAux t1 t2 tb fuel i j a1 a2 = some r := by
  intro fuel
  induction fuel with
  | zero =>
    intro i j a1 a2 _ _ h
    omega
  | succ fuel ih =>
    intro i j a1 a2 hi hj hf
    rw [walkAux]
    obtain ⟨tok1, htok1⟩ : ∃ x, (if 0 < i then t1.get? (i - 1) else t1.get? 0) = some x := by
      split

      · next hpos =>
        have : i - 1 < t1.length := by omega
        rw [List.get?_eq_getElem?, List.getElem?_eq_getElem this]
        exact ⟨_, rfl⟩
      · have : 0 < t1.length := List.length_pos.mpr h1
        rw [List.get?_eq_getElem?, List.getElem?_eq_getElem this]
        exact ⟨_, rfl⟩
    obtain ⟨tok2, htok2⟩ : ∃ x, (if 0 < j then t2.get? (j - 1) else t2.get? 0) = some x := by
      split
      · next hpos =>
        have : j - 1 < t2.length := by omega
        rw [List.get?_eq_getElem?, List.getElem?_eq_getElem this]
        exact ⟨_, rfl⟩
      · have : 0 < t2.length := List.length_pos.mpr h2
        rw [List.get?_eq_getElem?, List.getElem?_eq_getElem this]
        exact ⟨_, rfl⟩
    rw [htok1, htok2]
    simp only
    by_cases hc1 : (tb i j).d = true ∧ 0 < i ∧ 0 < j
    · rw [if_pos hc1]
      obtain ⟨-, hi0, hj0⟩ := hc1
      exact ih (i - 1) (j - 1) _ _ (by omega) (by omega) (by omega)
    · rw [if_neg hc1]
      by_cases hc2 : (tb i j).u = true ∧ 0 < i
      · rw [if_pos hc2]
        obtain ⟨-, hi0⟩ := hc2
        exact ih (i - 1) j _ _ (by omega) hj (by omega)
      · rw [if_neg hc2]
        by_cases hc3 : (tb i j).l = true ∧ 0 < j
        · rw [if_pos hc3]
          obtain ⟨-, hj0⟩ := hc3
          exact ih i (j - 1) _ _ hi (by omega) (by omega)
        · rw [if_neg hc3]
          exact ⟨(a1, a2), rfl⟩

/-- Walking the self-alignment traceback from `(i, i)` consumes the first
`i` tokens diagonally and stops at `(0, 0)`. -/
theorem walkAux_self (t : List Tok) (hno : ∀ a ∈ t, a.original = none)
    (ht : t ≠ []) :
    ∀ i, i ≤ t.length → ∀ fuel a1 a2, 2 * i < fuel →
      walkAux t t (nwTrace defaultParams t t) fuel i i a1 a2 =
        some (t.take i ++ a1, t.take i ++ a2) := by
  intro i
  induction i with
  | zero =>
    intro _ fuel a1 a2 hf
    cases fuel with
    | zero => omega
    | succ fuel =>
      rw [walkAux]
      have hlen : 0 < t.length := List.length_pos.mpr ht
      obtain ⟨x, hx⟩ : ∃ x, t.get? 0 = some x := by
        rw [List.get?_eq_getElem?, List.getElem?_eq_getElem hlen]
        exact ⟨_, rfl⟩
      rw [if_neg (by omega : ¬ 0 < 0), hx]
      dsimp only
      have htr : nwTrace defaultParams t t 0 0 = ⟨false, false, false⟩ := rfl
      rw [htr]
      rw [if_neg (by simp), if_neg (by simp), if_neg (by simp)]
      simp
  | succ i ih =>
    intro hi fuel a1 a2 hf
    cases fuel with
    | zero => omega
    | succ fuel =>
      rw [walkAux]
      have hlt : i < t.length := by omega
      have hget : t.get? (i + 1 - 1) = some t[i] := by
        rw [List.get?_eq_getElem?]
        exact List.getElem?_eq_getElem hlt
      rw [if_pos (Nat.succ_pos i), hget]
      simp only
      rw [selfTrace_diag t hno i hlt]
      rw [if_pos (by exact ⟨rfl, Nat.succ_pos i, Nat.succ_pos i⟩)]
      have hstep := ih (by omega) fuel (t[i] :: a1) (t[i] :: a2) (by omega)
      simp only [Nat.add_sub_cancel] at hstep ⊢
      rw [hstep]
      have htake : t.take (i + 1) = t.take i ++ [t[i]] := by
        rw [List.take_succ]
        rw [List.getElem?_eq_getElem hlt]
        rfl
      rw [htake, ← List.append_cons, ← List.append_cons]

/-- On two equal aligned lists the post-pass changes nothing. -/
theorem annotateLists_self : ∀ l : List Tok, annotateLists l l = (l, l) := by
  intro l
  induction l with
  | nil => rfl
  | cons x r ih =>
    have hpair : annotatePair x x = (x, x) := by
      rw [annotatePair, if_pos rfl]
    simp only [annotateLists, hpair, ih]

theorem recalcAux_length : ∀ i s (l : List Tok), (recalcAux i s l).length = l.length := by
  intro i s l
  induction l generalizing i s with
  | nil => rfl
  | cons x r ih => simp only [recalcAux, List.length_cons, ih]

/-! ### Claim C1 -/

/-- C1, counterexample: aligning two zero-length sequences is an error, not
two empty aligned sequences — the walk body evaluates `text1.tokens[0]` on
an empty token list, raising `IndexError` (modelled by `none`). -/
theorem c1_empty_align_counterexample :
    align_sentences [] [] = none ∧
    get_alignment_and_visualization_words [] [] (nwTrace defaultParams [] []) = none := by
  constructor <;> rfl

/-- C1 (amended): for every pair of NONEMPTY input sequences the traceback
reconstruction raises no error, terminates, and produces a traceback path,
for any traceback matrix; and the full `align_sentences` pipeline succeeds
whenever in addition no token pair hits the scorer's division by zero
(`SafePair`: differing texts with `max_len = 0`, possible only through an
empty-text `original` compared against an empty-text token — the source
raises `ZeroDivisionError` at line 147 there).  `SafePair` holds for all
`original`-free sequences, in particular everything the tokenizer
produces.  Two empty input sequences raise `IndexError` instead, see the
counterexample. -/
theorem c1_alignment_total_amended (t1 t2 : List Tok) (tb : Nat → Nat → Trace)
    (h1 : t1 ≠ []) (h2 : t2 ≠ []) (hs : SafePair t1 t2) :
    (∃ r, get_alignment_and_visualization_words t1 t2 tb = some r) ∧
    (∃ r, align_sentences t1 t2 = some r) := by
  constructor
  · obtain ⟨r, hr⟩ := walkAux_total t1 t2 tb h1 h2
      (t1.length + t2.length + 1) t1.length t2.length [] []
      (le_refl _) (le_refl _) (by omega)
    exact ⟨annotateLists r.1 r.2, by rw [get_alignment_and_visualization_words, hr]; rfl⟩
  · have h1' : t1.map clearTok ≠ [] := by
      simpa using h1
    have h2' : t2.map clearTok ≠ [] := by
      simpa using h2
    obtain ⟨r, hr⟩ := walkAux_total (t1.map clearTok) (t2.map clearTok)
      (nwTrace defaultParams (t1.map clearTok) (t2.map clearTok)) h1' h2'
      ((t1.map clearTok).length + (t2.map clearTok).length + 1)
      (t1.map clearTok).length (t2.map clearTok).length [] []
      (le_refl _) (le_refl _) (by omega)
    refine ⟨(recalculate_indices (annotateLists r.1 r.2).1,
      recalculate_indices (annotateLists r.1 r.2).2), ?_⟩
    show (get_alignment_and_visualization_words (t1.map clearTok) (t2.map clearTok)
      (nwTrace defaultParams (t1.map clearTok) (t2.map clearTok))).map
        (fun r => (recalculate_indices r.1, recalculate_indices r.2)) = _
    rw [get_alignment_and_visualization_words, hr]
    rfl

theorem c1_alignment_total_witness :
    ([wordTok "a"] ≠ ([] : List Tok)) ∧ ([wordTok "b"] ≠ ([] : List Tok)) ∧
    SafePair [wordTok "a"] [wordTok "b"] ∧
    ((∃ r, get_alignment_and_visualization_words [wordTok "a"] [wordTok "b"]
        (nwTrace defaultParams [wordTok "a"] [wordTok "b"]) = some r) ∧
     (∃ r, align_sentences [wordTok "a"] [wordTok "b"] = some r)) :=
  ⟨by decide, by decide, by decide,
    c1_alignment_total_amended [wordTok "a"] [wordTok "b"]
      (nwTrace defaultParams [wordTok "a"] [wordTok "b"]) (by decide) (by decide)
      (by decide)⟩

/-! ### Claim C2 -/

/-- C2: the two aligned sequences returned by the traceback reconstruction
always have equal length, and so do the two sequences returned by
`align_sentences`. -/
theorem c2_aligned_lengths_equal (t1 t2 : List Tok) (tb : Nat → Nat → Trace) :
    (∀ r, get_alignment_and_visualization_words t1 t2 tb = some r →
      r.1.length = r.2.length) ∧
    (∀ r, align_sentences t1 t2 = some r → r.1.length = r.2.length) := by
  have hmain : ∀ (u1 u2 : List Tok) (tb' : Nat → Nat → Trace) r,
      get_alignment_and_visualization_words u1 u2 tb' = some r →
      r.1.length = r.2.length := by
    intro u1 u2 tb' r h
    rw [get_alignment_and_visualization_words] at h
    rcases hw : walkAux u1 u2 tb' (u1.length + u2.length + 1) u1.length u2.length [] []
      with _ | w
    · rw [hw] at h
      simp at h
    · rw [hw] at h
      simp only [Option.map_some'] at h
      rcases Option.some.inj h with rfl
      have hl := walkAux_lengths u1 u2 tb' _ _ _ _ _ w hw rfl
      obtain ⟨ha1, ha2⟩ := annotateLists_lengths w.1 w.2
      omega
  constructor
  · exact hmain t1 t2 tb
  · intro r h
    rcases hg : get_alignment_and_visualization_words (t1.map clearTok) (t2.map clearTok)
        (nwTrace defaultParams (t1.map clearTok) (t2.map clearTok)) with _ | g
    · exfalso
      have : align_sentences t1 t2 = none := by
        show (get_alignment_and_visualization_words (t1.map clearTok) (t2.map clearTok)
          (nwTrace defaultParams (t1.map clearTok) (t2.map clearTok))).map
            (fun r => (recalculate_indices r.1, recalculate_indices r.2)) = none
        rw [hg]
        rfl
      rw [this] at h
      exact Option.noConfusion h
    · have heq : align_sentences t1 t2 =
          some (recalculate_indices g.1, recalculate_indices g.2) := by
        show (get_alignment_and_visualization_words (t1.map clearTok) (t2.map clearTok)
          (nwTrace defaultParams (t1.map clearTok) (t2.map clearTok))).map
            (fun r => (recalculate_indices r.1, recalculate_indices r.2)) = _
        rw [hg]
        rfl
      rw [heq] at h
      rcases Option.some.inj h with rfl
      have := hmain _ _ _ g hg
      simp only [recalculate_indices, recalcAux_length]
      omega

theorem c2_aligned_lengths_equal_witness :
    get_alignment_and_visualization_words [wordTok "a"] [wordTok "a"]
      (nwTrace defaultParams [wordTok "a"] [wordTok "a"]) =
      some ([wordTok "a"], [wordTok "a"]) ∧
    (([wordTok "a"], [wordTok "a"]) : List Tok × List Tok).1.length =
      (([wordTok "a"], [wordTok "a"]) : List Tok × List Tok).2.length :=
  ⟨by decide,
    (c2_aligned_lengths_equal [wordTok "a"] [wordTok "a"]
        (nwTrace defaultParams [wordTok "a"] [wordTok "a"])).1
      ([wordTok "a"], [wordTok "a"]) (by decide)⟩

/-! ### Claim C3 -/

/-- C3, counterexample: self-aligning the non-empty sequence consisting of
one `Spacer` token yields output sequences that contain a `Spacer` token
(the input one, matched diagonally), so "zero gap (Spacer) tokens" fails as
stated. -/
theorem c3_spacer_self_counterexample :
    get_alignment_and_visualization_words
      [({ text := "", kind := Kind.spacer } : Tok)]
      [({ text := "", kind := Kind.spacer } : Tok)]
      (nwTrace defaultParams [({ text := "", kind := Kind.spacer } : Tok)]
        [({ text := "", kind := Kind.spacer } : Tok)]) =
      some ([({ text := "", kind := Kind.spacer } : Tok)],
        [({ text := "", kind := Kind.spacer } : Tok)]) ∧
    ({ text := "", kind := Kind.spacer } : Tok).kind = Kind.spacer := by
  constructor <;> decide

/-- C3 (amended): for every non-empty sequence of tokens that carry no
`original` reference and contain no `Spacer` token (as holds for every
tokenizer-produced sequence), self-alignment returns the sequence itself on
both sides, every interior diagonal traceback cell carries exactly the
diagonal tag (an all-diagonal traceback), the outputs contain zero `Spacer`
tokens, and the final score `score[n][n]` equals `match_score * n`. -/
theorem c3_self_alignment_amended (t : List Tok) (ht : t ≠ [])
    (hno : ∀ a ∈ t, a.original = none)
    (hsp : ∀ a ∈ t, a.kind ≠ Kind.spacer) :
    get_alignment_and_visualization_words t t (nwTrace defaultParams t t) =
      some (t, t) ∧
    (∀ i, i < t.length →
      nwTrace defaultParams t t (i + 1) (i + 1) = ⟨true, false, false⟩) ∧
    (nwScore defaultParams t t t.length t.length).toRat =
      defaultParams.match_score.toRat * t.length ∧
    (∀ r, get_alignment_and_visualization_words t t (nwTrace defaultParams t t) =
      some r → ∀ tok, (tok ∈ r.1 ∨ tok ∈ r.2) → tok.kind ≠ Kind.spacer) := by
  have hwalk : get_alignment_and_visualization_words t t (nwTrace defaultParams t t) =
      some (t, t) := by
    rw [get_alignment_and_visualization_words]
    rw [walkAux_self t hno ht t.length (le_refl _)
      (t.length + t.length + 1) [] [] (by omega)]
    simp only [List.append_nil, List.take_length, Option.map_some']
    rw [annotateLists_self]
  refine ⟨hwalk, selfTrace_diag t hno, ?_, ?_⟩
  · rw [selfScore_diag t hno t.length (le_refl _), match_toRat_default, one_mul]
  · intro r hr tok htok
    rw [hwalk] at hr
    rcases Option.some.inj hr with rfl
    rcases htok with h | h <;> exact hsp tok h

theorem c3_self_alignment_witness :
    ([wordTok "ab"] ≠ ([] : List Tok)) ∧
    (get_alignment_and_visualization_words [wordTok "ab"] [wordTok "ab"]
        (nwTrace defaultParams [wordTok "ab"] [wordTok "ab"]) =
        some ([wordTok "ab"], [wordTok "ab"]) ∧
      (∀ i, i < ([wordTok "ab"] : List Tok).length →
        nwTrace defaultParams [wordTok "ab"] [wordTok "ab"] (i + 1) (i + 1) =
          ⟨true, false, false⟩) ∧
      (nwScore defaultParams [wordTok "ab"] [wordTok "ab"]
          ([wordTok "ab"] : List Tok).length ([wordTok "ab"] : List Tok).length).toRat =
        defaultParams.match_score.toRat * ([wordTok "ab"] : List Tok).length ∧
      (∀ r, get_alignment_and_visualization_words [wordTok "ab"] [wordTok "ab"]
          (nwTrace defaultParams [wordTok "ab"] [wordTok "ab"]) = some r →
        ∀ tok, (tok ∈ r.1 ∨ tok ∈ r.2) → tok.kind ≠ Kind.spacer)) :=
  ⟨by decide,
    c3_self_alignment_amended [wordTok "ab"] (by decide) (by decide) (by decide)⟩

theorem isinst_iff (a b : Kind) : isinst a b = true ↔ a = b ∨ b = Kind.token := by
  simp [isinst]

theorem string_data_inj (s t : String) (h : s.data = t.data) : s = t :=
  String.ext h

theorem Q.toRat_mk_nat (l m : Nat) :
    (Q.mk (l : Int) m).toRat = (l : ℚ) / (m : ℚ) := by
  rw [Q.toRat]
  push_cast
  ring

/-- Decomposition of the mismatch branch of the diagonal contribution in
`ℚ`: base mismatch, substring-scaled bonus, the type bonus gated by the
`isinstance` test (class equality, or `token2` being a base-class `Token`),
and the original-reference bonuses gated likewise. -/
theorem nwDiag_mismatch_toRat (p : ScoreParams) (hp : PDen p) (token1 token2 : Tok)
    (hne : token1.text ≠ token2.text)
    (hmax : 0 < max (srcTextOf token1).length token2.text.length) :
    (nwDiag p token1 token2).toRat =
      p.mismatch_score.toRat +
        (((longest_common_substring (srcTextOf token1).data token2.text.data).length : ℚ) /
          ((max (srcTextOf token1).length token2.text.length : Nat) : ℚ)) *
          p.substring_match_score.toRat +
      (if (token1.kind = token2.kind ∨ token2.kind = Kind.token) ∧
          1 < max (srcTextOf token1).length token2.text.length
        then p.type_match_score.toRat else 0) +
      (match token1.original with
       | some o =>
          (if o.text = token2.text then p.original_match_score.toRat else 0) +
          (if o.kind = token2.kind ∨ token2.kind = Kind.token
            then p.type_match_score.toRat else 0)
       | none => 0) := by
  obtain ⟨h1, h2, h3, h4, h5, h6⟩ := hp
  rcases ho : token1.original with _ | o
  · have hsrc : srcTextOf token1 = token1.text := by
      rw [srcTextOf, ho]
    rw [hsrc] at hmax ⊢
    have hm : (max token1.text.length token2.text.length : Nat) ≠ 0 := by omega
    simp only [nwDiag, if_neg hne, ho]
    have hfden : (Q.mul
        ⟨((longest_common_substring token1.text.data token2.text.data).length : Int),
          max token1.text.length token2.text.length⟩ p.substring_match_score).den ≠ 0 :=
      Q.den_mul _ _ hm h4
    have hbden : (if isinst token1.kind token2.kind &&
        decide (1 < max token1.text.length token2.text.length)
        then p.type_match_score else Q.ofInt 0).den ≠ 0 := by
      split <;> simp [Q.ofInt, h5]
    rw [Q.toRat_add _ _ (Q.den_add _ _ (Q.den_add _ _ h2 hfden) hbden) (by simp [Q.ofInt]),
      Q.toRat_add _ _ (Q.den_add _ _ h2 hfden) hbden,
      Q.toRat_add _ _ h2 hfden, Q.toRat_mul, Q.toRat_ofInt, Q.toRat_mk_nat]
    simp only [apply_ite Q.toRat, Q.toRat_ofInt, Int.cast_zero]
    simp only [show (isinst token1.kind token2.kind &&
        decide (1 < max token1.text.length token2.text.length)) = true ↔
        ((token1.kind = token2.kind ∨ token2.kind = Kind.token) ∧
          1 < max token1.text.length token2.text.length) from by simp [isinst]]
  · have hsrc : srcTextOf token1 = o.text := by
      rw [srcTextOf, ho]
    rw [hsrc] at hmax ⊢
    have hm : (max o.text.length token2.text.length : Nat) ≠ 0 := by omega
    simp only [nwDiag, if_neg hne, ho]
    have hfden : (Q.mul
        ⟨((longest_common_substring o.text.data token2.text.data).length : Int),
          max o.text.length token2.text.length⟩ p.substring_match_score).den ≠ 0 :=
      Q.den_mul _ _ hm h4
    have hbden : (if isinst token1.kind token2.kind &&
        decide (1 < max o.text.length token2.text.length)
        then p.type_match_score else Q.ofInt 0).den ≠ 0 := by
      split <;> simp [Q.ofInt, h5]
    have hoden1 : (if o.text = token2.text
        then p.original_match_score else Q.ofInt 0).den ≠ 0 := by
      split <;> simp [Q.ofInt, h6]
    have hoden2 : (if isinst o.kind token2.kind
        then p.type_match_score else Q.ofInt 0).den ≠ 0 := by
      split <;> simp [Q.ofInt, h5]
    rw [Q.toRat_add _ _ (Q.den_add _ _ (Q.den_add _ _ h2 hfden) hbden)
        (Q.den_add _ _ hoden1 hoden2),
      Q.toRat_add _ _ (Q.den_add _ _ h2 hfden) hbden,
      Q.toRat_add _ _ h2 hfden, Q.toRat_mul,
      Q.toRat_add _ _ hoden1 hoden2, Q.toRat_mk_nat]
    simp only [apply_ite Q.toRat, Q.toRat_ofInt, Int.cast_zero]
    simp only [show (isinst token1.kind token2.kind &&
        decide (1 < max o.text.length token2.text.length)) = true ↔
        ((token1.kind = token2.kind ∨ token2.kind = Kind.token) ∧
          1 < max o.text.length token2.text.length) from by simp [isinst],
      show isinst o.kind token2.kind = true ↔
        (o.kind = token2.kind ∨ token2.kind = Kind.token) from by simp [isinst]]

/-! ### Claim C4 -/

/-- C4: at every interior cell `(i+1, j+1)` filled by the scorer, the score
equals the maximum of the diagonal, up and left candidates, and the
traceback cell carries each tag if and only if the corresponding candidate
attains that maximum — ties are preserved as multiple simultaneous tags. -/
theorem c4_cell_recurrence (p : ScoreParams) (t1 t2 : List Tok) (i j : Nat)
    (hp : PDen p) (hs : SafePair t1 t2)
    (hi : i < t1.length) (hj : j < t2.length) :
    (nwScore p t1 t2 (i + 1) (j + 1)).toRat =
      max (max ((nwScore p t1 t2 i j).toRat +
          (nwDiag p (t1.getD i dummyTok) (t2.getD j dummyTok)).toRat)
        ((nwScore p t1 t2 i (j + 1)).toRat + p.gap_score.toRat))
        ((nwScore p t1 t2 (i + 1) j).toRat + p.gap_score.toRat) ∧
    ((nwTrace p t1 t2 (i + 1) (j + 1)).d = true ↔
      (nwScore p t1 t2 (i + 1) (j + 1)).toRat =
        (nwScore p t1 t2 i j).toRat +
          (nwDiag p (t1.getD i dummyTok) (t2.getD j dummyTok)).toRat) ∧
    ((nwTrace p t1 t2 (i + 1) (j + 1)).u = true ↔
      (nwScore p t1 t2 (i + 1) (j + 1)).toRat =
        (nwScore p t1 t2 i (j + 1)).toRat + p.gap_score.toRat) ∧
    ((nwTrace p t1 t2 (i + 1) (j + 1)).l = true ↔
      (nwScore p t1 t2 (i + 1) (j + 1)).toRat =
        (nwScore p t1 t2 (i + 1) j).toRat + p.gap_score.toRat) := by
  have hdden := nwScore_den p hp t1 t2 hs i j (by omega) (by omega)
  have huden := nwScore_den p hp t1 t2 hs i (j + 1) (by omega) (by omega)
  have hlden := nwScore_den p hp t1 t2 hs (i + 1) j (by omega) (by omega)
  have hmem1 : t1.getD i dummyTok ∈ t1 := by
    rw [List.getD_eq_getElem t1 dummyTok hi]
    exact List.getElem_mem _
  have hmem2 : t2.getD j dummyTok ∈ t2 := by
    rw [List.getD_eq_getElem t2 dummyTok hj]
    exact List.getElem_mem _
  have hdd := nwDiag_den p hp _ _ (hs _ hmem1 _ hmem2)
  have hfc := fillCell_toRat p (t1.getD i dummyTok) (t2.getD j dummyTok)
    (nwScore p t1 t2 i j) (nwScore p t1 t2 i (j + 1)) (nwScore p t1 t2 (i + 1) j)
    hp.2.2.1 hdd hdden huden hlden
  have es : nwScore p t1 t2 (i + 1) (j + 1) =
      (fillCell p (t1.getD i dummyTok) (t2.getD j dummyTok)
        (nwScore p t1 t2 i j) (nwScore p t1 t2 i (j + 1))
        (nwScore p t1 t2 (i + 1) j)).1 := by
    rw [nwScore, nwCell_succ_succ]
  have et : nwTrace p t1 t2 (i + 1) (j + 1) =
      (fillCell p (t1.getD i dummyTok) (t2.getD j dummyTok)
        (nwScore p t1 t2 i j) (nwScore p t1 t2 i (j + 1))
        (nwScore p t1 t2 (i + 1) j)).2 := by
    rw [nwTrace, nwCell_succ_succ]
  rw [es, et]
  exact hfc

theorem c4_cell_recurrence_witness :
    PDen defaultParams ∧ SafePair [wordTok "ab"] [wordTok "cd"] ∧
    ((nwScore defaultParams [wordTok "ab"] [wordTok "cd"] 1 1).toRat =
      max (max ((nwScore defaultParams [wordTok "ab"] [wordTok "cd"] 0 0).toRat +
          (nwDiag defaultParams ([wordTok "ab"].getD 0 dummyTok)
            ([wordTok "cd"].getD 0 dummyTok)).toRat)
        ((nwScore defaultParams [wordTok "ab"] [wordTok "cd"] 0 1).toRat +
          defaultParams.gap_score.toRat))
        ((nwScore defaultParams [wordTok "ab"] [wordTok "cd"] 1 0).toRat +
          defaultParams.gap_score.toRat) ∧
    ((nwTrace defaultParams [wordTok "ab"] [wordTok "cd"] 1 1).d = true ↔
      (nwScore defaultParams [wordTok "ab"] [wordTok "cd"] 1 1).toRat =
        (nwScore defaultParams [wordTok "ab"] [wordTok "cd"] 0 0).toRat +
          (nwDiag defaultParams ([wordTok "ab"].getD 0 dummyTok)
            ([wordTok "cd"].getD 0 dummyTok)).toRat) ∧
    ((nwTrace defaultParams [wordTok "ab"] [wordTok "cd"] 1 1).u = true ↔
      (nwScore defaultParams [wordTok "ab"] [wordTok "cd"] 1 1).toRat =
        (nwScore defaultParams [wordTok "ab"] [wordTok "cd"] 0 1).toRat +
          defaultParams.gap_score.toRat) ∧
    ((nwTrace defaultParams [wordTok "ab"] [wordTok "cd"] 1 1).l = true ↔
      (nwScore defaultParams [wordTok "ab"] [wordTok "cd"] 1 1).toRat =
        (nwScore defaultParams [wordTok "ab"] [wordTok "cd"] 1 0).toRat +
          defaultParams.gap_score.toRat)) :=
  ⟨by decide, by decide,
    c4_cell_recurrence defaultParams [wordTok "ab"] [wordTok "cd"] 0 0
      (by decide) (by decide) (by decide) (by decide)⟩

/-! ### Claim C5 -/

/-- C5: at every visited cell the walk applies the exact priority order of
the source: a diagonal move whenever the `D` tag is present and `i > 0` and
`j > 0` (even when other tags are present), else an up move consuming one
token of sequence 1 and emitting a gap placeholder into sequence 2 (reusing
`token2` when it already is a `Spacer`), else the symmetric left move, else
termination returning the lists built so far. -/
theorem c5_walk_priority (t1 t2 : List Tok) (tb : Nat → Nat → Trace)
    (fuel i j : Nat) (a1 a2 : List Tok) (token1 token2 : Tok)
    (h1 : (if 0 < i then t1.get? (i - 1) else t1.get? 0) = some token1)
    (h2 : (if 0 < j then t2.get? (j - 1) else t2.get? 0) = some token2) :
    ((tb i j).d = true ∧ 0 < i ∧ 0 < j →
      walkAux t1 t2 tb (fuel + 1) i j a1 a2 =
        walkAux t1 t2 tb fuel (i - 1) (j - 1) (token1 :: a1) (token2 :: a2)) ∧
    (¬((tb i j).d = true ∧ 0 < i ∧ 0 < j) → ((tb i j).u = true ∧ 0 < i) →
      walkAux t1 t2 tb (fuel + 1) i j a1 a2 =
        walkAux t1 t2 tb fuel (i - 1) j (token1 :: a1)
          ((if token2.kind = Kind.spacer
            then { token2 with alignment_spaces := token1.text.length }
            else mkAlignedSpacer token1.text.length) :: a2)) ∧
    (¬((tb i j).d = true ∧ 0 < i ∧ 0 < j) → ¬((tb i j).u = true ∧ 0 < i) →
      ((tb i j).l = true ∧ 0 < j) →
      walkAux t1 t2 tb (fuel + 1) i j a1 a2 =
        walkAux t1 t2 tb fuel i (j - 1)
          ((if token1.kind = Kind.spacer
            then { token1 with alignment_spaces := token2.text.length }
            else mkAlignedSpacer token2.text.length) :: a1) (token2 :: a2)) ∧
    (¬((tb i j).d = true ∧ 0 < i ∧ 0 < j) → ¬((tb i j).u = true ∧ 0 < i) →
      ¬((tb i j).l = true ∧ 0 < j) →
      walkAux t1 t2 tb (fuel + 1) i j a1 a2 = some (a1, a2)) := by
  refine ⟨?_, ?_, ?_, ?_⟩
  · intro hc
    rw [walkAux, h1, h2]
    simp only
    rw [if_pos hc]
  · intro hnc hc
    rw [walkAux, h1, h2]
    simp only
    rw [if_neg hnc, if_pos hc]
  · intro hnc hnu hc
    rw [walkAux, h1, h2]
    simp only
    rw [if_neg hnc, if_neg hnu, if_pos hc]
  · intro hnc hnu hnl
    rw [walkAux, h1, h2]
    simp only
    rw [if_neg hnc, if_neg hnu, if_neg hnl]

theorem c5_walk_priority_witness :
    ((if 0 < 1 then [wordTok "a"].get? 0 else [wordTok "a"].get? 0) =
      some (wordTok "a")) ∧
    ((nwTrace defaultParams [wordTok "a"] [wordTok "b"] 1 1).d = true ∧ 0 < 1 ∧ 0 < 1 →
      walkAux [wordTok "a"] [wordTok "b"]
          (nwTrace defaultParams [wordTok "a"] [wordTok "b"]) (2 + 1) 1 1 [] [] =
        walkAux [wordTok "a"] [wordTok "b"]
          (nwTrace defaultParams [wordTok "a"] [wordTok "b"]) 2 0 0
          [wordTok "a"] [wordTok "b"]) :=
  ⟨by decide,
    (c5_walk_priority [wordTok "a"] [wordTok "b"]
      (nwTrace defaultParams [wordTok "a"] [wordTok "b"]) 2 1 1 [] []
      (wordTok "a") (wordTok "b") (by decide) (by decide)).1⟩

/-! ### Claim C6 -/

/-- C6, counterexample: with `token2` a plain base-class `Token`, the type
bonus is added although the kinds differ — `isinstance(token1,
type(token2))` is `isinstance(token1, Token)`, true for every token.  Here
the longest common substring is empty, so the contribution is
`-1 + 0 + 0.5 = -1/2` rather than the `-1` the claim as stated implies. -/
theorem c6_generic_kind_counterexample :
    (wordTok "ab").kind ≠ ({ text := "cd", kind := Kind.token } : Tok).kind ∧
    (longest_common_substring "ab".data "cd".data).length = 0 ∧
    Q.beqv (nwDiag defaultParams (wordTok "ab") { text := "cd", kind := Kind.token })
      ⟨-1, 2⟩ = true ∧
    Q.beqv (nwDiag defaultParams (wordTok "ab") { text := "cd", kind := Kind.token })
      ⟨-1, 1⟩ = false :=
  ⟨by decide, by decide, by decide, by decide⟩

/-- C6 (amended): in the mismatch branch the `type_match_score` bonus is
added iff `token1.kind = token2.kind` OR `token2` is a base-class `Token`
(Python `isinstance` semantics) and the longer compared text has length
greater than 1; when `token1.original` exists, `original_match_score` is
added iff the original's text equals `token2.text` exactly, plus an
additional `type_match_score` iff the original's kind equals `token2`'s
kind or `token2` is a base-class `Token`. -/
theorem c6_type_bonus_amended (p : ScoreParams) (hp : PDen p) (token1 token2 : Tok)
    (hne : token1.text ≠ token2.text)
    (hmax : 0 < max (srcTextOf token1).length token2.text.length) :
    (nwDiag p token1 token2).toRat =
      p.mismatch_score.toRat +
        (((longest_common_substring (srcTextOf token1).data token2.text.data).length : ℚ) /
          ((max (srcTextOf token1).length token2.text.length : Nat) : ℚ)) *
          p.substring_match_score.toRat +
      (if (token1.kind = token2.kind ∨ token2.kind = Kind.token) ∧
          1 < max (srcTextOf token1).length token2.text.length
        then p.type_match_score.toRat else 0) +
      (match token1.original with
       | some o =>
          (if o.text = token2.text then p.original_match_score.toRat else 0) +
          (if o.kind = token2.kind ∨ token2.kind = Kind.token
            then p.type_match_score.toRat else 0)
       | none => 0) :=
  nwDiag_mismatch_toRat p hp token1 token2 hne hmax

theorem c6_type_bonus_witness :
    PDen defaultParams ∧
    (wordTok "ab").text ≠ ({ text := "cd", kind := Kind.token } : Tok).text ∧
    (nwDiag defaultParams (wordTok "ab") { text := "cd", kind := Kind.token }).toRat =
      defaultParams.mismatch_score.toRat +
        (((longest_common_substring (srcTextOf (wordTok "ab")).data
            ({ text := "cd", kind := Kind.token } : Tok).text.data).length : ℚ) /
          ((max (srcTextOf (wordTok "ab")).length
            ({ text := "cd", kind := Kind.token } : Tok).text.length : Nat) : ℚ)) *
          defaultParams.substring_match_score.toRat +
      (if ((wordTok "ab").kind = ({ text := "cd", kind := Kind.token } : Tok).kind ∨
          ({ text := "cd", kind := Kind.token } : Tok).kind = Kind.token) ∧
          1 < max (srcTextOf (wordTok "ab")).length
            ({ text := "cd", kind := Kind.token } : Tok).text.length
        then defaultParams.type_match_score.toRat else 0) +
      (match (wordTok "ab").original with
       | some o =>
          (if o.text = ({ text := "cd", kind := Kind.token } : Tok).text
            then defaultParams.original_match_score.toRat else 0) +
          (if o.kind = ({ text := "cd", kind := Kind.token } : Tok).kind ∨
              ({ text := "cd", kind := Kind.token } : Tok).kind = Kind.token
            then defaultParams.type_match_score.toRat else 0)
       | none => 0) :=
  ⟨by decide, by decide,
    c6_type_bonus_amended defaultParams (by decide) (wordTok "ab")
      { text := "cd", kind := Kind.token } (by decide) (by decide)⟩

/-! ### Claim C7 -/

/-- C7: the mismatch contribution is monotonically non-decreasing in the
length of the longest common substring of the two compared texts, all else
equal (same kinds, same text lengths, same `token1`, same constants with
nonnegative substring/original weights as the defaults are); and with
the defaults, `mismatch("cat","cats")` scores strictly higher than
`mismatch("cat","dog")`. -/
theorem c7_mismatch_monotone (p : ScoreParams) (hp : PDen p)
    (hsub : Q.blev (Q.ofInt 0) p.substring_match_score = true)
    (horig : Q.blev (Q.ofInt 0) p.original_match_score = true)
    (token1 t2 t2' : Tok)
    (hne : token1.text ≠ t2.text) (hne' : token1.text ≠ t2'.text)
    (hk : t2.kind = t2'.kind) (hlen : t2.text.length = t2'.text.length)
    (hmax : 0 < max (srcTextOf token1).length t2.text.length)
    (hlcs : (longest_common_substring (srcTextOf token1).data t2.text.data).length ≤
            (longest_common_substring (srcTextOf token1).data t2'.text.data).length) :
    ((nwDiag p token1 t2).toRat ≤ (nwDiag p token1 t2').toRat) ∧
    Q.blev (nwDiag defaultParams (wordTok "cat") (wordTok "dog"))
      (nwDiag defaultParams (wordTok "cat") (wordTok "cats")) = true ∧
    Q.beqv (nwDiag defaultParams (wordTok "cat") (wordTok "dog"))
      (nwDiag defaultParams (wordTok "cat") (wordTok "cats")) = false := by
  refine ⟨?_, by decide, by decide⟩
  have hmeq : max (srcTextOf token1).length t2'.text.length =
      max (srcTextOf token1).length t2.text.length := by
    rw [hlen]
  have hmax' : 0 < max (srcTextOf token1).length t2'.text.length := by
    rw [hmeq]
    exact hmax
  have hsubR : 0 ≤ p.substring_match_score.toRat := by
    have := (Q.blev_iff _ _ (by simp [Q.ofInt]) hp.2.2.2.1).mp hsub
    rwa [Q.toRat_ofInt, Int.cast_zero] at this
  have horigR : 0 ≤ p.original_match_score.toRat := by
    have := (Q.blev_iff _ _ (by simp [Q.ofInt]) hp.2.2.2.2.2).mp horig
    rwa [Q.toRat_ofInt, Int.cast_zero] at this
  rw [nwDiag_mismatch_toRat p hp token1 t2 hne hmax,
    nwDiag_mismatch_toRat p hp token1 t2' hne' hmax', hmeq, ← hk]
  have hmpos : (0 : ℚ) < ((max (srcTextOf token1).length t2.text.length : Nat) : ℚ) := by
    exact_mod_cast hmax
  have hfrac :
      (((longest_common_substring (srcTextOf token1).data t2.text.data).length : ℚ) /
        ((max (srcTextOf token1).length t2.text.length : Nat) : ℚ)) *
        p.substring_match_score.toRat ≤
      (((longest_common_substring (srcTextOf token1).data t2'.text.data).length : ℚ) /
        ((max (srcTextOf token1).length t2.text.length : Nat) : ℚ)) *
        p.substring_match_score.toRat := by
    apply mul_le_mul_of_nonneg_right _ hsubR
    rw [div_eq_mul_inv, div_eq_mul_inv]
    apply mul_le_mul_of_nonneg_right (Nat.cast_le.mpr hlcs)
    positivity
  rcases ho : token1.original with _ | o
  · simp only
    linarith
  · simp only
    have hsrc : srcTextOf token1 = o.text := by
      rw [srcTextOf, ho]
    by_cases hot : o.text = t2.text
    · by_cases hot' : o.text = t2'.text
      · rw [if_pos hot, if_pos hot']
        linarith
      · exfalso
        apply hot'
        rw [hsrc] at hlcs
        have e1 : t2.text.data.length = t2.text.length := rfl
        have e2 : t2'.text.data.length = t2'.text.length := rfl
        have e3 : o.text.data.length = o.text.length := rfl
        have hlenx : t2'.text.data.length = o.text.data.length := by
          have : o.text.length = t2.text.length := by rw [hot]
          omega
        have hl : (longest_common_substring o.text.data t2.text.data).length =
            o.text.data.length := by
          rw [hot, length_lcs, lcsScan_self]
        have hl' : (longest_common_substring o.text.data t2'.text.data).length ≤
            t2'.text.data.length := by
          rw [length_lcs]
          exact (lcsScan_le _ _).2
        have hfull : (lcsScan o.text.data t2'.text.data).1 = o.text.data.length := by
          rw [← length_lcs]
          omega
        exact (string_data_inj _ _ (lcs_full_eq o.text.data t2'.text.data hfull hlenx)).symm
    · rw [if_neg hot]
      by_cases hot' : o.text = t2'.text
      · rw [if_pos hot']
        linarith
      · rw [if_neg hot']
        linarith

theorem c7_mismatch_monotone_witness :
    PDen defaultParams ∧
    (wordTok "cat").text ≠ (wordTok "dog").text ∧
    (longest_common_substring (srcTextOf (wordTok "cat")).data
        (wordTok "dog").text.data).length ≤
      (longest_common_substring (srcTextOf (wordTok "cat")).data
        (wordTok "cts").text.data).length ∧
    (((nwDiag defaultParams (wordTok "cat") (wordTok "dog")).toRat ≤
        (nwDiag defaultParams (wordTok "cat") (wordTok "cts")).toRat) ∧
      Q.blev (nwDiag defaultParams (wordTok "cat") (wordTok "dog"))
        (nwDiag defaultParams (wordTok "cat") (wordTok "cats")) = true ∧
      Q.beqv (nwDiag defaultParams (wordTok "cat") (wordTok "dog"))
        (nwDiag defaultParams (wordTok "cat") (wordTok "cats")) = false) :=
  ⟨by decide, by decide, by decide,
    c7_mismatch_monotone defaultParams (by decide) (by decide) (by decide)
      (wordTok "cat") (wordTok "dog") (wordTok "cts") (by decide) (by decide)
      (by decide) (by decide) (by decide) (by decide)⟩

/-! ### Claim C8 -/

theorem create_token_text (u : String) : (create_token u).text = u := by
  unfold create_token
  split_ifs <;> rfl

theorem drop_takeWhile_length (p : Char → Bool) :
    ∀ l : List Char, l.drop (l.takeWhile p).length = l.dropWhile p := by
  intro l
  induction l with
  | nil => rfl
  | cons a l ih =>
    by_cases hp : p a
    · simp [List.takeWhile_cons, List.dropWhile_cons, hp, ih]
    · simp [List.takeWhile_cons, List.dropWhile_cons, hp]

theorem takeWhile_length_le (p : Char → Bool) :
    ∀ l : List Char, (l.takeWhile p).length ≤ l.length := by
  intro l
  induction l with
  | nil => simp
  | cons a l ih =>
    by_cases hp : p a
    · simp only [List.takeWhile_cons, hp, if_true, List.length_cons]
      omega
    · simp [List.takeWhile_cons, hp]

theorem string_join_data :
    ∀ ss : List String, (String.join ss).data = (ss.map String.data).flatten := by
  have haux : ∀ (ss : List String) (acc : String),
      (ss.foldl (fun r s => r ++ s) acc).data = acc.data ++ (ss.map String.data).flatten := by
    intro ss
    induction ss with
    | nil => intro acc; simp
    | cons s rest ih =>
      intro acc
      simp only [List.foldl_cons, ih, List.map_cons, List.flatten_cons,
        String.data_append]
      rw [List.append_assoc]
  intro ss
  have := haux ss ""
  simpa [String.join] using this

theorem to_string_data (l : List Tok) :
    (to_string l).data = (l.map (fun t => t.text.data)).flatten := by
  rw [to_string, string_join_data, List.map_map]
  rfl

theorem findFrom_at (text pat : List Char) (current : Nat)
    (hcur : current ≤ text.length) (hmat : matchesAt text pat current = true) :
    findFrom text pat current = some current := by
  rw [findFrom]
  have : text.length + 1 - current = (text.length - current) + 1 := by omega
  rw [this, findFromAux, if_pos hmat]

/-- Core induction for the tokenizer wrapper: under `covers` of the
remaining text, the wrapper succeeds, reproduces exactly the remaining text
(units and the individual whitespace characters between them), and every
output token is either a unit or a single whitespace character. -/
theorem wtfnAux_covers (text : List Char) :
    ∀ (units : List String) (current : Nat), current ≤ text.length →
      covers (text.drop current) units = true →
      ∃ out, wtfnAux text units current = some out ∧
        (out.map String.data).flatten = text.drop current ∧
        ∀ tk ∈ out, tk ∈ units ∨ ∃ c, pyIsSpace c = true ∧ tk = String.mk [c] := by
  intro units
  induction units with
  | nil =>
    intro current _ hcov
    refine ⟨[], rfl, ?_, by simp⟩
    simp only [covers] at hcov
    simp [List.isEmpty_iff.mp hcov]
  | cons u rest ih =>
    intro current hcur hcov
    simp only [covers, Bool.and_eq_true, decide_eq_true_eq] at hcov
    obtain ⟨⟨⟨hne, hnws⟩, htake⟩, hrest⟩ := hcov
    have hmat : matchesAt text u.data current = true := by
      rw [matchesAt, decide_eq_true_eq]
      exact htake
    have hulen : u.data.length ≤ text.length - current := by
      have hlt := congrArg List.length htake
      simp only [List.length_take, List.length_drop] at hlt
      omega
    have hfind := findFrom_at text u.data current hcur hmat
    have hdropdrop : (text.drop current).drop u.data.length =
        text.drop (current + u.data.length) := List.drop_drop _ _ _
    have hdw : (text.drop (current + u.data.length)).drop
        ((text.drop (current + u.data.length)).takeWhile pyIsSpace).length =
        (text.drop (current + u.data.length)).dropWhile pyIsSpace :=
      drop_takeWhile_length pyIsSpace _
    have hrunlen : ((text.drop (current + u.data.length)).takeWhile pyIsSpace).length ≤
        text.length - (current + u.data.length) := by
      have h1 := takeWhile_length_le pyIsSpace (text.drop (current + u.data.length))
      simp only [List.length_drop] at h1
      exact h1
    have hnext : text.drop (current + u.data.length +
        ((text.drop (current + u.data.length)).takeWhile pyIsSpace).length) =
        (text.drop (current + u.data.length)).dropWhile pyIsSpace := by
      rw [← List.drop_drop]
      exact hdw
    have hrest' : covers (text.drop (current + u.data.length +
        ((text.drop (current + u.data.length)).takeWhile pyIsSpace).length)) rest =
        true := by
      rw [hnext, ← hdropdrop]
      exact hrest
    obtain ⟨out, hout, hflat, hmem⟩ := ih
      (current + u.data.length +
        ((text.drop (current + u.data.length)).takeWhile pyIsSpace).length)
      (by omega) hrest'
    refine ⟨u :: ((text.drop (current + u.data.length)).takeWhile pyIsSpace).map
        (fun c => String.mk [c]) ++ out, ?_, ?_, ?_⟩
    · rw [wtfnAux, hfind]
      simp only
      rw [hout]
      rfl
    · simp only [List.map_cons, List.map_append, List.flatten_cons,
        List.flatten_append, List.map_map]
      have hsing : (((text.drop (current + u.data.length)).takeWhile pyIsSpace).map
          (String.data ∘ fun c => String.mk [c])).flatten =
          (text.drop (current + u.data.length)).takeWhile pyIsSpace := by
        generalize (text.drop (current + u.data.length)).takeWhile pyIsSpace = ws
        induction ws with
        | nil => rfl
        | cons c cs ihc => simp [ihc]
      rw [hsing, hflat, hnext, List.append_assoc, List.takeWhile_append_dropWhile,
        ← hdropdrop]
      nth_rewrite 1 [← htake]
      rw [List.take_append_drop]
    · intro tk htk
      rcases List.mem_cons.mp htk with rfl | htk'
      · exact Or.inl (List.mem_cons_self _ _)
      rcases List.mem_append.mp htk' with hws | hout'
      · obtain ⟨c, hc, rfl⟩ := List.mem_map.mp hws
        exact Or.inr ⟨c, List.mem_takeWhile_imp hc, rfl⟩
      · rcases hmem tk hout' with h | h
        · exact Or.inl (List.mem_cons_of_mem _ h)
        · exact Or.inr h

/-- C8, counterexample: tokenize-then-flatten does not reconstruct every
non-empty string, and not every whitespace character becomes a
`Whitespace` token: a leading space is dropped entirely (no token holds
it), and a newline becomes a `Special` token. -/
theorem c8_tokenize_counterexample :
    whitespace_tokenize_from_nltk ["a"] " a" = some ["a"] ∧
    to_string (["a"].map create_token) = "a" ∧ ("a" : String) ≠ " a" ∧
    whitespace_tokenize_from_nltk ["a", "b"] "a\nb" = some ["a", "\n", "b"] ∧
    (create_token "\n").kind = Kind.special ∧
    (create_token "\n").kind ≠ Kind.whitespace := by
  refine ⟨by decide, by decide, by decide, by decide, by decide, by decide⟩

/-- C8 (amended): for every string `s` and word-boundary unit list that
covers `s` (no leading whitespace, units whitespace-free and verbatim),
tokenizing and flattening reconstructs `s` exactly; every emitted token is
a unit or a single whitespace character standing in its original position,
and a single-space token is classified `Whitespace` (while `\n`/`\t`
become `Special`). -/
theorem c8_tokenize_roundtrip_amended (s : String) (units : List String)
    (hcov : covers s.data units = true) :
    ∃ toks, whitespace_tokenize_from_nltk units s = some toks ∧
      to_string (toks.map create_token) = s ∧
      (∀ tk ∈ toks, tk ∈ units ∨ ∃ c, pyIsSpace c = true ∧ tk = String.mk [c]) ∧
      (create_token " ").kind = Kind.whitespace := by
  obtain ⟨out, hout, hflat, hmem⟩ := wtfnAux_covers s.data units 0 (by omega)
    (by simpa using hcov)
  refine ⟨out, hout, ?_, hmem, rfl⟩
  apply string_data_inj
  rw [to_string_data, List.map_map]
  have hcomp : ((fun t : Tok => t.text.data) ∘ create_token) = String.data := by
    funext u
    show (create_token u).text.data = u.data
    rw [create_token_text]
  rw [hcomp]
  simpa using hflat

theorem c8_tokenize_roundtrip_witness :
    covers "a b".data ["a", "b"] = true ∧
    (∃ toks, whitespace_tokenize_from_nltk ["a", "b"] "a b" = some toks ∧
      to_string (toks.map create_token) = "a b" ∧
      (∀ tk ∈ toks, tk ∈ ["a", "b"] ∨ ∃ c, pyIsSpace c = true ∧ tk = String.mk [c]) ∧
      (create_token " ").kind = Kind.whitespace) :=
  ⟨by decide, c8_tokenize_roundtrip_amended "a b" ["a", "b"] (by decide)⟩

/-! ### Claim C9 -/

/-- C9, counterexample: the alignment is token-level, not character-level.
`align_strings("color", "colour")` (with the word-boundary tokenizer
producing one unit per string, as the spec's tokenizer contract gives for a
single word) yields ONE aligned token on each side with NO gap insertion
anywhere, and the final score is `1/2`, not the value `4` of "one gap
penalty plus full match scores" at character level. -/
theorem c9_color_colour_counterexample :
    (align_strings ["color"] ["colour"] "color" "colour").map
        (fun r => (r.1.length, r.2.length,
          r.1.all (fun tok => !(tok.kind == Kind.spacer)),
          r.2.all (fun tok => !(tok.kind == Kind.spacer)))) =
      some (1, 1, true, true) ∧
    Q.beqv (nwScore defaultParams
      [{ wordTok "color" with index := some 0, start := some 0 }]
      [{ wordTok "colour" with index := some 0, start := some 0 }] 1 1) ⟨1, 2⟩ = true ∧
    Q.beqv (nwScore defaultParams
      [{ wordTok "color" with index := some 0, start := some 0 }]
      [{ wordTok "colour" with index := some 0, start := some 0 }] 1 1) ⟨4, 1⟩ = false := by
  refine ⟨by decide, by decide, by decide⟩

/-- C9 (amended): aligning `"color"` against `"colour"` compares the two
whole-word tokens and takes a single diagonal (mismatch) move: both outputs
are the one word token, marked aligned and coloured red, with `"color"`
padded by one space; no gap token is inserted, and the final score is
`mismatch -1 + (4/6)·1.5 substring bonus + 0.5 type bonus = 1/2`, the
longest common substring of the two words being `"colo"`. -/
theorem c9_color_colour_amended :
    align_strings ["color"] ["colour"] "color" "colour" =
      some ([{ text := "color", kind := Kind.word, index := some 0, start := some 0,
               aligned := true, alignment_spaces := 1, color := some "\x1b[31m" }],
            [{ text := "colour", kind := Kind.word, index := some 0, start := some 0,
               aligned := true, alignment_spaces := 0, color := some "\x1b[31m" }]) ∧
    longest_common_substring "color".data "colour".data = "colo".data ∧
    Q.beqv (nwScore defaultParams
      [{ wordTok "color" with index := some 0, start := some 0 }]
      [{ wordTok "colour" with index := some 0, start := some 0 }] 1 1) ⟨1, 2⟩ = true ∧
    nwTrace defaultParams
      [{ wordTok "color" with index := some 0, start := some 0 }]
      [{ wordTok "colour" with index := some 0, start := some 0 }] 1 1 =
      ⟨true, false, false⟩ := by
  refine ⟨by decide, by decide, by decide, by decide⟩

/-! ### Claim C10 -/

/-- C10, counterexample: after aligning the equal one-token texts `"a"` and
`"a"`, the input sequences' tokens DO still carry the dense index `0` and
start `0` of their owning sequence — the reindexing of the aligned
sequences writes back exactly the same values, so the claim's universal
"no longer carry" part fails. -/
theorem c10_identity_counterexample :
    align_sentencesH [0] [1] exHeapEq = some ([0], [1], exHeapEqFinal) ∧
    (hGet exHeapEqFinal 0).index = some 0 ∧ (hGet exHeapEqFinal 0).start = some 0 ∧
    (hGet exHeapEq 0).index = some 0 ∧ (hGet exHeapEq 0).start = some 0 := by
  refine ⟨by decide, by decide, by decide, by decide, by decide⟩

/-- C10 (amended): `align` inserts the input sequences' token objects
themselves (their references, not copies) into the aligned sequences and
mutates them through those shared references: the post-pass sets `aligned`,
`alignment_spaces` and `color` of differing pairs, and the final
reindexing overwrites the shared tokens' `index`/`start` with their
positions in the ALIGNED sequence — which differ from the owning input
sequence's dense values whenever the traceback inserted gaps before them
(here: aligning `"b"` against `"a b"`, the input token `"b"` of the first
text ends at aligned index `2`, start `1`, no longer its owning values
`0`/`0`; the tokens of the second text are annotated in place). -/
theorem c10_sharing_mutation_amended :
    align_sentencesH [0] [1, 2, 3] exHeapBA =
      some ([5, 4, 0], [1, 2, 3], exHeapBAFinal) ∧
    (0 ∈ [5, 4, 0] ∧ 1 ∈ [1, 2, 3] ∧ 2 ∈ [1, 2, 3] ∧ 3 ∈ [1, 2, 3]) ∧
    ((hGet exHeapBA 0).index = some 0 ∧ (hGet exHeapBA 0).start = some 0) ∧
    ((hGet exHeapBAFinal 0).index = some 2 ∧ (hGet exHeapBAFinal 0).start = some 1) ∧
    ((hGet exHeapBAFinal 1).aligned = true ∧
      (hGet exHeapBAFinal 1).color = some "\x1b[34m") ∧
    ((hGet exHeapBAFinal 4).kind = Kind.spacer ∧
      (hGet exHeapBAFinal 4).alignment_spaces = 1) := by
  refine ⟨by decide, by decide, by decide, by decide, by decide, by decide⟩

end AALChem
